import Mathlib

set_option linter.unusedVariables false

/-!
Verification development for the `rhc` repository.

This file gives a shallow embedding of the parts of the source that the
checked properties are about:

* `src/rhc/httphandler.py` — the incremental HTTP/1.x message engine
  (`HTTPHandler`): line splitting, status/request line parsing, header and
  footer blocks, fixed-length and chunked body framing, and outgoing
  message serialization (`send` / `send_server`).
* `src/rhc/timer.py` — the timer scheduler (`Timers`, `Timer`,
  `BackoffTimer`, `HourlyTimer`, `_timer`).
* `src/rhc/connect.py` — the at-most-once completion guard of
  `ConnectHandler.done`.

Byte strings are modelled as `List Char` (the source is Python 2, where
`str` is a byte string; each byte is one `Char`).  Python library
primitives used by the source (`str.split`, `str.strip`, `int()`,
slicing, `dict`) are modelled by explicit functions whose semantics
follow the Python documentation.  Machine floats appear in the source
only as `time.time()` values used for ordering; the model keeps time as
an integer count of milliseconds, which is order-isomorphic to the
source's seconds-as-float arithmetic.
-/

namespace Rhc

/-- Byte strings of the Python-2 source, one `Char` per byte. -/
abbrev Str := List Char

/-- Shorthand turning a Lean string literal into the model's byte string. -/
def str (s : String) : Str := s.toList

/-- Python `s.split(c, 1)` when the separator occurs: the part before the
first occurrence of `c` and the part after it; `none` when `c` does not
occur (Python then returns the one-element list `[s]`). -/
def splitFirst (c : Char) : Str → Option (Str × Str)
  | [] => none
  | a :: rest =>
    if a = c then some ([], rest)
    else match splitFirst c rest with
      | none => none
      | some (l, r) => some (a :: l, r)

/-- A successful `splitFirst` decomposes the string around the first
occurrence of the separator. -/
theorem splitFirst_sound {c : Char} :
    ∀ {s l r : Str}, splitFirst c s = some (l, r) → s = l ++ c :: r ∧ c ∉ l := by
  intro s
  induction s with
  | nil => intro l r h; simp [splitFirst] at h
  | cons a rest ih =>
    intro l r h
    simp only [splitFirst] at h
    split at h
    · rename_i hac
      cases h
      subst hac
      simp
    · rename_i hac
      revert h
      cases hsp : splitFirst c rest with
      | none => intro h; cases h
      | some p =>
        cases p with
        | mk l0 r0 =>
          intro h
          cases h
          have := ih hsp
          refine ⟨by rw [this.1]; simp, ?_⟩
          simp only [List.mem_cons]
          rintro (h | h)
          · exact hac h.symm
          · exact this.2 h

/-- A failing `splitFirst` means the separator does not occur. -/
theorem splitFirst_none {c : Char} :
    ∀ {s : Str}, splitFirst c s = none → c ∉ s := by
  intro s
  induction s with
  | nil => intro _; simp
  | cons a rest ih =>
    intro h
    simp only [splitFirst] at h
    split at h
    · cases h
    · rename_i hac
      revert h
      cases hsp : splitFirst c rest with
      | none =>
        intro _
        simp only [List.mem_cons]
        rintro (h | h)
        · exact hac h.symm
        · exact ih hsp h
      | some p => cases p; intro h; cases h

/-- `splitFirst` on a string with a known first separator occurrence. -/
theorem splitFirst_of_append {c : Char} {l r : Str} (h : c ∉ l) :
    splitFirst c (l ++ c :: r) = some (l, r) := by
  induction l with
  | nil => simp [splitFirst]
  | cons a rest ih =>
    simp only [List.mem_cons, not_or] at h
    simp only [List.cons_append, splitFirst]
    rw [if_neg fun hc => h.1 hc.symm]
    have harw : rest.append (c :: r) = rest ++ c :: r := rfl
    rw [harw, ih h.2]

/-- The remainder returned by `splitFirst` is shorter than the input. -/
theorem splitFirst_shrink {c : Char} {s l r : Str}
    (h : splitFirst c s = some (l, r)) : r.length < s.length := by
  have := (splitFirst_sound h).1
  subst this
  simp only [List.length_append, List.length_cons]
  omega

/-- Worker for `splitAll`, carrying the current piece reversed. -/
def splitAllGo (c : Char) (cur : Str) : Str → List Str
  | [] => [cur.reverse]
  | a :: rest =>
    if a = c then cur.reverse :: splitAllGo c [] rest
    else splitAllGo c (a :: cur) rest

/-- Python `s.split(c)` (split on every occurrence of a one-char
separator, keeping empty pieces). -/
def splitAll (c : Char) (s : Str) : List Str := splitAllGo c [] s

/-- The characters Python `str.strip()` and `str.split()` treat as
whitespace. -/
def pySpace (c : Char) : Bool :=
  c = ' ' || c = '\t' || c = '\n' || c = '\r' || c = '\x0b' || c = '\x0c'

/-- Python `s.strip()`: remove leading and trailing whitespace. -/
def pyStrip (s : Str) : Str :=
  (s.dropWhile pySpace).reverse.dropWhile pySpace |>.reverse

/-- Worker for `pySplitWs`, carrying the current word reversed. -/
def pySplitWsGo (cur : Str) : Str → List Str
  | [] => if cur = [] then [] else [cur.reverse]
  | a :: rest =>
    if pySpace a then
      if cur = [] then pySplitWsGo [] rest
      else cur.reverse :: pySplitWsGo [] rest
    else pySplitWsGo (a :: cur) rest

/-- Python `s.split()` with no argument: split on whitespace runs,
discarding empty pieces. -/
def pySplitWs (s : Str) : List Str := pySplitWsGo [] s

/-- Lower-case a byte string (Python `str.lower()` on ASCII bytes). -/
def lowerStr (s : Str) : Str := s.map Char.toLower

/-- Python `int(s)`: optional surrounding whitespace, optional single
sign, then one or more decimal digits; anything else raises
`ValueError`, modelled as `none`. -/
def pyInt (s : Str) : Option Int :=
  let t := pyStrip s
  let (sign, digits) : Int × Str :=
    match t with
    | '-' :: rest => (-1, rest)
    | '+' :: rest => (1, rest)
    | _ => (1, t)
  if digits = [] then none
  else if digits.all Char.isDigit then
    some (sign * (digits.foldl (fun acc c => acc * 10 + (c.toNat - 48)) 0 : Nat))
  else none

/-- Value of one hexadecimal digit byte. -/
def hexVal (c : Char) : Nat :=
  if c.isDigit then c.toNat - 48
  else if 'a' ≤ c ∧ c ≤ 'f' then c.toNat - 87
  else c.toNat - 55

/-- Is the byte a hexadecimal digit? -/
def isHexDigit (c : Char) : Bool :=
  c.isDigit || ('a' ≤ c && c ≤ 'f') || ('A' ≤ c && c ≤ 'F')

/-- Python `int(s, 16)`: optional whitespace and sign, optional `0x`/`0X`
marker, then one or more hex digits; otherwise `ValueError` (`none`). -/
def pyIntHex (s : Str) : Option Int :=
  let t := pyStrip s
  let (sign, body) : Int × Str :=
    match t with
    | '-' :: rest => (-1, rest)
    | '+' :: rest => (1, rest)
    | _ => (1, t)
  let digits :=
    match body with
    | '0' :: 'x' :: rest => rest
    | '0' :: 'X' :: rest => rest
    | _ => body
  if digits = [] then none
  else if digits.all isHexDigit then
    some (sign * (digits.foldl (fun acc c => acc * 16 + hexVal c) 0 : Nat))
  else none

/-- `len(s)` as an integer, for comparisons against possibly negative
parsed lengths. -/
def pyLen (s : Str) : Int := (s.length : Int)

/-- Python slice `s[:n]` for an arbitrary integer `n`: for `n ≥ 0` the
first `n` bytes, for `n < 0` everything but the last `-n` bytes. -/
def pySliceTo (s : Str) (n : Int) : Str :=
  if 0 ≤ n then s.take n.toNat
  else s.take (s.length - (-n).toNat)

/-- Python slice `s[n:]` for an arbitrary integer `n`: for `n ≥ 0` drop
the first `n` bytes, for `n < 0` the last `-n` bytes (clamped). -/
def pySliceFrom (s : Str) (n : Int) : Str :=
  if 0 ≤ n then s.drop n.toNat
  else s.drop (s.length - (-n).toNat)

/-- Python `sep.join(xs)`. -/
def pyJoin (sep : Str) : List Str → Str
  | [] => []
  | [x] => x
  | x :: y :: rest => x ++ sep ++ pyJoin sep (y :: rest)

/-- Headers are modelled as an association list with Python-`dict`
update semantics (each key occurs at most once; updates overwrite in
place, new keys are appended).  The Python-2 source iterates dicts in
an unspecified order; the model fixes insertion order, which no checked
property depends on. -/
abbrev Dict := List (Str × Str)

/-- `d[k]` lookup (`dict.get`): the value stored under `k`. -/
def dictGet (d : Dict) (k : Str) : Option Str :=
  match d with
  | [] => none
  | (k0, v0) :: rest => if k0 = k then some v0 else dictGet rest k

/-- `k in d` membership test. -/
def dictHas (d : Dict) (k : Str) : Bool :=
  (dictGet d k).isSome

/-- `d[k] = v` update: overwrite an existing binding in place, append a
new one. -/
def dictSet (d : Dict) (k : Str) (v : Str) : Dict :=
  match d with
  | [] => [(k, v)]
  | (k0, v0) :: rest =>
    if k0 = k then (k0, v) :: rest else (k0, v0) :: dictSet rest k v

/-- Number of keys in the dict (`len(d)`). -/
def dictLen (d : Dict) : Nat := d.length

/-- `str(n)` for the non-negative integers the source renders
(`len(content)`). -/
def natToStr (n : Nat) : Str := (Nat.repr n).toList

/-- Does `s` start with `pat`? -/
def hasStart (pat s : Str) : Bool := decide (s.take pat.length = pat)

/-- Python substring membership `pat in s`. -/
def hasSub (pat : Str) : Str → Bool
  | [] => decide (pat = [])
  | a :: rest => hasStart pat (a :: rest) || hasSub pat rest

/-! ## The HTTP message engine (`src/rhc/httphandler.py`)

The engine is a per-connection state machine fed by `on_data`.  Its
mutable attributes become the fields of `HState`; the handler-level
configuration attributes and the overridable callbacks become `Cfg`.
Omitted attributes, none of which is read by a checked property:
`http_message` (raw bytes of the current message, kept by the source
only for trace logging), `http_multipart` and `http_query`
(`urlparse.parse_qsl` is an external library call), and the timing
fields `t_http_data`/`start`. -/

/-- Callback events delivered to the owner of the connection, oldest
first.  `httpData` snapshots `http_headers` and `http_content` at the
moment `on_http_data` fires; `httpError` is `on_http_error` with the
recorded diagnostic; `sent` is an outgoing serialized message
(`BasicHandler.send` via `HTTPHandler.__send`). -/
inductive Event
  | httpData (headers : Dict) (content : Str)
  | httpError (message : Str)
  | sent (bytes : Str)
  deriving DecidableEq, Repr

/-- The parse-position tag: which `__state` method is installed. -/
inductive PState
  | status
  | header
  | content
  | chunkedLength
  | chunkedContent
  | chunkedContentEnd
  | footer
  | identity
  deriving DecidableEq, Repr

/-- Handler-level configuration: the three `http_max_*` attributes, the
result of the overridable `on_http_headers` callback, and the values the
source obtains from external libraries (`time.strftime` date header,
socket peer address, `gzip` decompression, charset decoding). -/
structure Cfg where
  httpMaxContentLength : Option Nat := none
  httpMaxLineLength : Nat := 10000
  httpMaxHeaderCount : Nat := 100
  onHttpHeadersRc : Nat := 0
  onHttpHeadersDetail : Str := []
  dateString : Str := str "Sat, 01 Jan 2025 00:00:00 GMT"
  selfHost : Option Str := none
  peerAddress : Str := str "10.0.0.1:80"
  gzipDecode : Str → Str := id
  charsetDecode : Str → Str → Str := fun _ c => c

/-- The mutable parsing state of one `HTTPHandler`. -/
structure HState where
  data : Str := []
  httpHeaders : Dict := []
  httpContent : Str := []
  httpStatusCode : Option Int := none
  httpStatusMessage : Option Str := none
  httpMethod : Option Str := none
  httpResource : Option Str := none
  httpQueryString : Option Str := none
  length : Int := 0
  state : PState := .status
  sentHttpMethod : Option Str := none
  closeOnComplete : Bool := false
  identityOnClose : Bool := false
  error : Option Str := none
  closed : Bool := false
  events : List Event := []
  deriving DecidableEq, Repr

/-- `HTTPHandler.__setup`: reset the per-message fields (the buffered
`__data`, the error/closed status and the send-related flags survive). -/
def setup (s : HState) : HState :=
  { s with httpHeaders := [], httpContent := [], httpStatusCode := none,
           httpStatusMessage := none, httpMethod := none, httpResource := none,
           httpQueryString := none, state := .status }

/-- `HTTPHandler.charset`: the charset parameter of the `Content-Type`
header.  (When a `;`-piece mentioning `charset` has no `=`, the source
raises `IndexError` out of the handler; no checked property reaches
that case and the model returns `none` there.) -/
def charsetOf (headers : Dict) : Option Str :=
  match dictGet headers (str "Content-Type") with
  | none => none
  | some h =>
    match ((splitAll ';' h).filter (hasSub (str "charset"))).head? with
    | none => none
    | some c => ((splitAll '=' c).get? 1).map pyStrip

/-- `HTTPHandler._on_http_data`: post-process a complete message and
deliver it.  `gzip` decompression and charset decoding are external
library calls, modelled by the functions carried in `Cfg`; the
multipart sub-part split (`_multipart`) mutates only `http_multipart`
and the `Content-Type` header on multipart messages, which no checked
property reads, and is not modelled. -/
def onHttpDataFire (cfg : Cfg) (s : HState) : HState :=
  let c1 :=
    if dictGet s.httpHeaders (str "Content-Encoding") = some (str "gzip") then
      cfg.gzipDecode s.httpContent
    else s.httpContent
  let c2 :=
    match charsetOf s.httpHeaders with
    | some cs => cfg.charsetDecode cs c1
    | none => c1
  { s with httpContent := c2, events := s.events ++ [.httpData s.httpHeaders c2] }

/-- `BasicHandler.close` as seen by the message engine: mark the
connection closed (idempotently) and run the `_on_close` hook, which is
`__on_identity_close` when the read-until-close framing installed it
(that hook delivers the buffered bytes as the body). -/
def closeConn (cfg : Cfg) (s : HState) : HState :=
  if s.closed then s
  else
    let s1 : HState := { s with closed := true }
    if s1.identityOnClose then
      onHttpDataFire cfg { s1 with httpContent := s1.data }
    else s1

/-- `HTTPHandler.__error`: record the diagnostic, fire `on_http_error`,
close the connection; the caller returns `False` to stop the parse
loop. -/
def fatal (cfg : Cfg) (s : HState) (message : Str) : HState :=
  closeConn cfg
    { s with error := some message, events := s.events ++ [.httpError message] }

/-- Result of `HTTPHandler.__line`: a fatal error (`False` in the
source), not enough buffered data (`None`), or a complete line. -/
inductive LineRes
  | err
  | more
  | line (l : Str)
  deriving DecidableEq, Repr

/-- `HTTPHandler.__line`: take one `\n`-delimited line off the buffer,
strip a trailing `\r`, and enforce the maximum line length both on
unterminated buffered data (diagnostic `(a)`) and on a complete line
(diagnostic `(b)`). -/
def getLine (cfg : Cfg) (s : HState) : LineRes × HState :=
  match splitFirst '\n' s.data with
  | none =>
    if pyLen s.data > (cfg.httpMaxLineLength : Int) then
      (.err, fatal cfg s (str "too much data without a line termination (a)"))
    else (.more, s)
  | some (l, rest) =>
    let s1 : HState := { s with data := rest }
    if l = [] then (.line [], s1)
    else
      let l1 := if l.getLast? = some '\r' then l.dropLast else l
      if l1.length > cfg.httpMaxLineLength then
        (.err, fatal cfg s1 (str "too much data without a line termination (b)"))
      else (.line l1, s1)

/-- `BasicHandler.send` composed with `HTTPHandler.__send`: the
serialized start line + headers and the body are written to the socket
as one byte sequence. -/
def sendRaw (s : HState) (headers content : Str) : HState :=
  { s with events := s.events ++ [.sent (headers ++ content)] }

/-- Fill in the `Date` and `Content-Length` headers when absent, as both
`send` and `send_server` do. -/
def fillHeaders (cfg : Cfg) (headers : Dict) (content : Str) : Dict :=
  let h1 := if dictHas headers (str "Date") then headers
            else dictSet headers (str "Date") cfg.dateString
  if dictHas h1 (str "Content-Length") then h1
  else dictSet h1 (str "Content-Length") (natToStr content.length)

/-- Serialize a header block: `\r\n`-joined `name: value` lines. -/
def headerBlock (headers : Dict) : Str :=
  pyJoin (str "\r\n") (headers.map (fun p => p.1 ++ str ": " ++ p.2))

/-- `HTTPHandler.send_server`: serialize a response.  Remembers whether
to close once the write drains (request asked `Connection: close`, or
the caller did). -/
def sendServer (cfg : Cfg) (s : HState) (content : Str) (code : Nat) (message : Str)
    (headers : Dict) (close : Bool) : HState :=
  let s1 : HState := { s with closeOnComplete :=
    (if close then true
     else decide (dictGet s.httpHeaders (str "Connection") = some (str "close"))) }
  let hs := fillHeaders cfg headers content
  let head := str "HTTP/1.1 " ++ natToStr code ++ str " " ++ message ++ str "\r\n"
    ++ headerBlock hs ++ str "\r\n\r\n"
  sendRaw s1 head content

/-- `HTTPHandler.send`: serialize a request.  Sets `_http_method` (used
later to recognize a HEAD exchange), fills `Date`, `Content-Length`,
optional `Connection: close` and `Accept-Encoding: gzip`, and a `Host`
header resolved like the source (argument, else `self.host`, else the
peer address; Python truthiness, so empty strings fall through). -/
def send (cfg : Cfg) (s : HState) (method : Str) (host : Option Str) (resource : Str)
    (headers : Dict) (content : Str) (close : Bool) (compress : Bool) : HState :=
  let s1 : HState := { s with sentHttpMethod := some method }
  let hs := fillHeaders cfg headers content
  let hs := if close then dictSet hs (str "Connection") (str "close") else hs
  let hs := if compress then dictSet hs (str "Accept-Encoding") (str "gzip") else hs
  let hs :=
    if hs.any (fun p => lowerStr p.1 = str "host") then hs
    else
      let h1 := host.getD []
      let h2 := if h1 ≠ [] then h1 else cfg.selfHost.getD []
      let hostVal := if h2 ≠ [] then h2 else cfg.peerAddress
      dictSet hs (str "Host") hostVal
  let head := method ++ str " " ++ resource ++ str " HTTP/1.1\r\n"
    ++ headerBlock hs ++ str "\r\n\r\n"
  sendRaw s1 head content

/-- `HTTPHandler.__content`: fixed-length body collection.  When enough
bytes are buffered, deliver the message and reset for the next one.
(`http_status_code` briefly holds the raw token string in the source
before `int()` replaces it; only the successfully converted value is
ever observable, which is what the model stores.) -/
def content (cfg : Cfg) (s : HState) : Bool × HState :=
  if pyLen s.data ≥ s.length then
    let s1 : HState := { s with httpContent := pySliceTo s.data s.length }
    let s2 := onHttpDataFire cfg s1
    let s3 : HState := { s2 with data := pySliceFrom s2.data s2.length }
    (true, setup s3)
  else (false, s)

/-- Python truthiness of `http_max_content_length` combined with the
size comparison: `None` and `0` disable the check. -/
def maxContentCheck (cfg : Cfg) (v : Int) : Bool :=
  match cfg.httpMaxContentLength with
  | none => false
  | some m => decide (m ≠ 0) && decide (v > (m : Int))

/-- The lower-case indexing pass at the top of `_end_header`: iterate
over a snapshot of the headers, storing each value under the
lower-cased name as well. -/
def lowerFold (hs : Dict) : Dict :=
  hs.foldl (fun d p => dictSet d (lowerStr p.1) p.2) hs

/-- The serialized `413 Request Entity Too Large` response that
`send_server(code=413, message='Request Entity Too Large')` emits. -/
def resp413 (cfg : Cfg) : Str :=
  str "HTTP/1.1 " ++ natToStr 413 ++ str " " ++ str "Request Entity Too Large"
    ++ str "\r\n" ++ headerBlock (fillHeaders cfg [] []) ++ str "\r\n\r\n"

/-- `HTTPHandler._end_header`: index lower-cased copies of the header
names, choose the body framing, and give the overridable
`on_http_headers` callback a chance to abort. -/
def endHeader (cfg : Cfg) (s : HState) : Bool × HState :=
  let s := { s with httpHeaders := lowerFold s.httpHeaders }
  let rcCheck : HState → Bool × HState := fun s1 =>
    if cfg.onHttpHeadersRc ≠ 0 then (false, fatal cfg s1 cfg.onHttpHeadersDetail)
    else (true, s1)
  if s.sentHttpMethod = some (str "HEAD") then
    rcCheck { s with length := 0, state := .content }
  else if dictHas s.httpHeaders (str "Transfer-Encoding") then
    if dictGet s.httpHeaders (str "Transfer-Encoding") ≠ some (str "chunked") then
      (false, fatal cfg s (str "Unsupported Transfer-Encoding value"))
    else rcCheck { s with state := .chunkedLength }
  else if dictHas s.httpHeaders (str "Content-Length") then
    match pyInt ((dictGet s.httpHeaders (str "Content-Length")).getD []) with
    | none => (false, fatal cfg s (str "Invalid content length"))
    | some n =>
      let s := { s with length := n }
      if maxContentCheck cfg n then
        let s := sendServer cfg s [] 413 (str "Request Entity Too Large") [] false
        (false, fatal cfg s (str "Content-Length exceeds maximum length"))
      else rcCheck { s with state := .content }
  else if s.httpMethod.isSome then
    rcCheck (content cfg { s with length := 0 }).2
  else
    rcCheck { s with identityOnClose := true, state := .identity }

/-- `HTTPHandler.__status`: parse the start line.  Client role (token 0
is an HTTP version) records status code and message; server role
(token 2 must be an HTTP version) records method, resource and query
string (`urlparse` on an origin-form target: split on the first `?`;
`parse_qsl`-derived `http_query` is not modelled). -/
def status (cfg : Cfg) (s : HState) : Bool × HState :=
  match getLine cfg s with
  | (.err, s1) => (false, s1)
  | (.more, s1) => (false, s1)
  | (.line l, s1) =>
    match pySplitWs l with
    | t0 :: t1 :: t2 :: trest =>
      if t0 = str "HTTP/1.0" ∨ t0 = str "HTTP/1.1" then
        match pyInt t1 with
        | none => (false, fatal cfg s1 (str "Invalid status line: non-integer status code"))
        | some code =>
          (true, { s1 with httpStatusCode := some code,
                           httpStatusMessage := some (pyJoin (str " ") (t2 :: trest)),
                           state := .header })
      else if t2 ≠ str "HTTP/1.0" ∧ t2 ≠ str "HTTP/1.1" then
        (false, fatal cfg s1 (str "Invalid status line: not HTTP/1.0 or HTTP/1.1"))
      else
        let (res, q) :=
          match splitFirst '?' t1 with
          | none => (t1, ([] : Str))
          | some (p, q) => (p, q)
        (true, { s1 with httpMethod := some t0, httpResource := some res,
                         httpQueryString := some q, state := .header })
    | _ => (false, fatal cfg s1 (str "Invalid status line: too few tokens"))

/-- `HTTPHandler.__header`: one header line, or the blank line ending the
block.  (On a `__line` length error the source's `False` falls into
`len(False)` and raises on the already-closed connection; processing
stops either way, modelled as a `false` step.) -/
def header (cfg : Cfg) (s : HState) : Bool × HState :=
  match getLine cfg s with
  | (.err, s1) => (false, s1)
  | (.more, s1) => (false, s1)
  | (.line [], s1) => endHeader cfg s1
  | (.line l, s1) =>
    if dictLen s1.httpHeaders = cfg.httpMaxHeaderCount then
      (false, fatal cfg s1 (str "Too many header records defined"))
    else
      match splitFirst ':' l with
      | none => (false, fatal cfg s1 (str "Invalid header: missing colon"))
      | some (name, value) =>
        (true, { s1 with
          httpHeaders := dictSet s1.httpHeaders (pyStrip name) (pyStrip value) })

/-- The length token of a chunk-size line (`line.split(';', 1)[0]`). -/
def chunkSizeTok (l : Str) : Str :=
  match splitFirst ';' l with
  | none => l
  | some (bef, _) => bef

/-- `HTTPHandler.__chunked_length`: parse `<hex-length>[;ext]`; zero ends
the body (footers follow); the configured maximum content length is
checked against the buffered bytes plus the announced chunk. -/
def chunkedLength (cfg : Cfg) (s : HState) : Bool × HState :=
  match getLine cfg s with
  | (.err, s1) => (false, s1)
  | (.more, s1) => (false, s1)
  | (.line l, s1) =>
    let l0 := chunkSizeTok l
    match pyIntHex l0 with
    | none =>
      (false, fatal cfg s1 (str "Invalid transfer-encoding chunk length: " ++ l0))
    | some n =>
      let s2 : HState := { s1 with length := n }
      if n = 0 then (true, { s2 with state := .footer })
      else if maxContentCheck cfg (pyLen s2.data + n) then
        let s3 := sendServer cfg s2 [] 413 (str "Request Entity Too Large") [] false
        (false, fatal cfg s3 (str "Content-Length exceeds maximum length"))
      else (true, { s2 with state := .chunkedContent })

/-- `HTTPHandler.__chunked_content`: append one chunk's bytes. -/
def chunkedContent (cfg : Cfg) (s : HState) : Bool × HState :=
  if pyLen s.data ≥ s.length then
    (true, { s with httpContent := s.httpContent ++ pySliceTo s.data s.length,
                    data := pySliceFrom s.data s.length,
                    state := .chunkedContentEnd })
  else (false, s)

/-- `HTTPHandler.__chunked_content_end`: only an empty line may follow a
chunk's data. -/
def chunkedContentEnd (cfg : Cfg) (s : HState) : Bool × HState :=
  match getLine cfg s with
  | (.err, s1) => (false, s1)
  | (.more, s1) => (false, s1)
  | (.line l, s1) =>
    if l = [] then (true, { s1 with state := .chunkedLength })
    else (false, fatal cfg s1 (str "Extra data at end of chunk"))

/-- `HTTPHandler.__footer`: trailer lines after the zero chunk; a blank
line delivers the message. -/
def footer (cfg : Cfg) (s : HState) : Bool × HState :=
  match getLine cfg s with
  | (.err, s1) => (false, s1)
  | (.more, s1) => (false, s1)
  | (.line [], s1) => (true, setup (onHttpDataFire cfg s1))
  | (.line l, s1) =>
    match splitFirst ':' l with
    | none => (false, fatal cfg s1 (str "Invalid footer: missing colon"))
    | some (name, value) =>
      if dictLen s1.httpHeaders = cfg.httpMaxHeaderCount then
        (false, fatal cfg s1 (str "Too many header records defined"))
      else
        (true, { s1 with
          httpHeaders := dictSet s1.httpHeaders (pyStrip name) (pyStrip value) })

/-- One iteration of the `while self.__state(): pass` loop in
`on_data`: run the installed state method. -/
def step (cfg : Cfg) (s : HState) : Bool × HState :=
  match s.state with
  | .status => status cfg s
  | .header => header cfg s
  | .content => content cfg s
  | .chunkedLength => chunkedLength cfg s
  | .chunkedContent => chunkedContent cfg s
  | .chunkedContentEnd => chunkedContentEnd cfg s
  | .footer => footer cfg s
  | .identity => (false, s)

/-- Rank of a parse state inside the termination measure: the two body
states may make progress without consuming buffered bytes. -/
def rank : PState → Nat
  | .content => 1
  | .chunkedContent => 1
  | _ => 0

/-- Termination measure for the parse loop: every `true` step strictly
decreases it (`step_mu`). -/
def mu (s : HState) : Nat := 2 * s.data.length + rank s.state

/-- The parse loop with explicit fuel; `mu s + 1` fuel always reaches
the loop's exit (`step` returning `False`). -/
def loopF (cfg : Cfg) : Nat → HState → HState
  | 0, s => s
  | fuel + 1, s =>
    match step cfg s with
    | (true, s1) => loopF cfg fuel s1
    | (false, s1) => s1

/-- The `while self.__state(): pass` loop. -/
def runLoop (cfg : Cfg) (s : HState) : HState := loopF cfg (mu s + 1) s

/-- Append freshly received bytes to the buffer (`self.__data += data`). -/
def addData (s : HState) (x : Str) : HState := { s with data := s.data ++ x }

/-- `HTTPHandler.on_data`: buffer the bytes and run the parse loop.  A
closed connection receives no further reads (the socket layer tears the
registration down on close), hence the guard. -/
def onData (cfg : Cfg) (s : HState) (d : Str) : HState :=
  if s.closed then s else runLoop cfg (addData s d)

/-- Feed a list of byte chunks through successive `on_data` calls. -/
def feedAll (cfg : Cfg) (s : HState) : List Str → HState
  | [] => s
  | d :: rest => feedAll cfg (onData cfg s d) rest

/-- Check, with fuel, that every state the parse loop visits keeps a
non-negative `__length` (a negative declared length makes Python's
negative-index slicing read from the end of the buffer, which is
partition-sensitive). -/
def loopOkF (cfg : Cfg) : Nat → HState → Bool
  | 0, s => decide (0 ≤ s.length)
  | fuel + 1, s =>
    decide (0 ≤ s.length) &&
      (match step cfg s with
       | (true, s1) => loopOkF cfg fuel s1
       | (false, _) => true)

/-- The loop-length check with always-sufficient fuel. -/
def runLoopOk (cfg : Cfg) (s : HState) : Bool := loopOkF cfg (mu s + 1) s

/-- Check a partition: every `on_data` call keeps lengths non-negative,
and no call but possibly the last closes the connection. -/
def feedOk (cfg : Cfg) (s : HState) : List Str → Bool
  | [] => true
  | d :: rest =>
    runLoopOk cfg (addData s d) &&
      (decide (rest = []) || !(onData cfg s d).closed) &&
      feedOk cfg (onData cfg s d) rest

/-! ## The timer scheduler (`src/rhc/timer.py`)

Durations are milliseconds.  `_timer.start` converts to seconds before
adding to `time.time()`; the model keeps the whole timeline in integer
milliseconds, which is order-isomorphic to the source's floating-point
seconds.  Timer actions are opaque identifiers recorded when fired (the
scheduler treats them as inert callables; `execute` catches anything
they raise). -/

/-- The duration policy of a timer object: `Timer` (fixed duration),
`BackoffTimer` (its mutable `duration` starts as `None`), or
`HourlyTimer`. -/
inductive Policy
  | fixed (duration : Nat)
  | backoff (initial maximum multiplier : Nat) (duration : Option Nat)
  | hourly
  deriving DecidableEq, Repr

/-- `get_duration` of the three timer classes: fixed returns the stored
duration; backoff returns the initial value on a first or restarted
start and otherwise multiplies, capped at the maximum; hourly returns
the milliseconds until the next wall-clock hour boundary. -/
def getDuration (p : Policy) (isRestarting : Bool) (now : Int) : Nat × Policy :=
  match p with
  | .fixed d => (d, .fixed d)
  | .backoff i m mult dur =>
    match dur, isRestarting with
    | none, _ => (i, .backoff i m mult (some i))
    | some _, true => (i, .backoff i m mult (some i))
    | some d, false =>
      let d1 := d * mult
      let d2 := if d1 > m then m else d1
      (d2, .backoff i m mult (some d2))
  | .hourly =>
    let d := (3600000 - now.emod 3600000).toNat
    (d, .hourly)

/-- One `_timer` wrapper together with its wrapped timer object. -/
structure TEntry where
  action : Nat
  policy : Policy
  expiration : Int := 0
  running : Bool := false
  isInHeap : Bool := false
  isRestarting : Bool := false
  deriving DecidableEq, Repr

/-- Look a timer up by identity. -/
def tGet (l : List (Nat × TEntry)) (i : Nat) : Option TEntry :=
  match l with
  | [] => none
  | (j, e) :: rest => if j = i then some e else tGet rest i

/-- Replace a timer's state (append when the identity is new). -/
def tSet (l : List (Nat × TEntry)) (i : Nat) (e : TEntry) : List (Nat × TEntry) :=
  match l with
  | [] => [(i, e)]
  | (j, e0) :: rest => if j = i then (j, e) :: rest else (j, e0) :: tSet rest i e

/-- Current expiration of a heap element (heap identities always resolve
in states built by the scheduler operations; the default is never
read there). -/
def expOf (l : List (Nat × TEntry)) (i : Nat) : Int :=
  ((tGet l i).map (fun e => e.expiration)).getD 0

/-- The `Timers` scheduler state: the timer objects keyed by identity,
`self.__list`, and a log of fired actions with the expiration they
fired at.  `heapq` realizes a priority queue over `_timer.__lt__`
(expiration order) and `Timers._on_start` re-sorts the list in place;
the model keeps the list in ascending-expiration order at push/sort
time, the same priority-queue semantics (entries whose expiration is
mutated after insertion keep their position in both). -/
structure TimersState where
  timers : List (Nat × TEntry) := []
  heap : List Nat := []
  fired : List (Nat × Int) := []
  deriving DecidableEq, Repr

/-- Insert an identity into the expiration-ordered list (after any
equal keys, matching a stable sort of the pushed element). -/
def heapInsert (ts : List (Nat × TEntry)) (i : Nat) : List Nat → List Nat
  | [] => [i]
  | j :: rest =>
    if expOf ts i < expOf ts j then i :: j :: rest
    else j :: heapInsert ts i rest

/-- `self.__list.sort()`: stable insertion sort by current expiration. -/
def heapSort (ts : List (Nat × TEntry)) (l : List Nat) : List Nat :=
  l.foldr (fun i acc => heapInsert ts i acc) []

/-- `Timers.add` / `add_backoff` / `add_hourly` followed by `_wrap`:
create an idle, un-heaped timer.  Identities model distinct Python
objects, so an already-used identity is left untouched. -/
def addOp (ts : TimersState) (i : Nat) (action : Nat) (p : Policy) : TimersState :=
  match tGet ts.timers i with
  | some _ => ts
  | none =>
    let e : TEntry := { action := action, policy := p }
    { ts with timers := tSet ts.timers i e }

/-- `_timer.start`: raise on a running timer (the exception propagates
before any mutation, leaving the state unchanged), else mark running,
compute the new expiration from the policy, and push into the heap —
or, when the wrapper is still in the heap, just re-sort
(`Timers._on_start`). -/
def startOp (ts : TimersState) (i : Nat) (now : Int) : TimersState :=
  match tGet ts.timers i with
  | none => ts
  | some e =>
    if e.running then ts
    else
      let (d, p1) := getDuration e.policy e.isRestarting now
      let e1 : TEntry := { e with running := true, policy := p1,
                                  expiration := now + (d : Int) }
      if e1.isInHeap then
        let tm := tSet ts.timers i e1
        { ts with timers := tm, heap := heapSort tm ts.heap }
      else
        let e2 : TEntry := { e1 with isInHeap := true }
        let tm := tSet ts.timers i e2
        { ts with timers := tm, heap := heapInsert tm i ts.heap }

/-- `_timer.re_start`: clear `running`, start with `is_restarting` set
(so a backoff policy returns to its initial duration), clear the flag. -/
def reStartOp (ts : TimersState) (i : Nat) (now : Int) : TimersState :=
  match tGet ts.timers i with
  | none => ts
  | some e =>
    let e0 : TEntry := { e with running := false, isRestarting := true }
    let ts1 : TimersState := { ts with timers := tSet ts.timers i e0 }
    let ts2 := startOp ts1 i now
    match tGet ts2.timers i with
    | none => ts2
    | some e2 => { ts2 with timers := tSet ts2.timers i { e2 with isRestarting := false } }

/-- `_timer.cancel` (and `delete`): mark a running timer idle and zero
its expiration; the wrapper stays wherever it is. -/
def cancelOp (ts : TimersState) (i : Nat) : TimersState :=
  match tGet ts.timers i with
  | none => ts
  | some e =>
    if e.running then
      { ts with timers := tSet ts.timers i { e with running := false, expiration := 0 } }
    else ts

/-- `_timer.expire`: move a running timer's deadline 5 seconds into the
past. -/
def expireOp (ts : TimersState) (i : Nat) (now : Int) : TimersState :=
  match tGet ts.timers i with
  | none => ts
  | some e =>
    if e.running then
      { ts with timers := tSet ts.timers i { e with expiration := now - 5000 } }
    else ts

/-- The `while len(self) and self.__list[0].is_expired` loop of
`Timers.service`, recursing along the list: pop the head while it is
expired (`expiration < now`, strict), clear its in-heap flag, and
`execute` it — which fires the action only if the timer is still
running, marking it idle first.  Returns the timers, the fired log and
the remaining list.  (A heap identity that does not resolve stops the
loop; it never occurs in states built by the operations.) -/
def serviceGo (now : Int) (tm : List (Nat × TEntry)) (fired : List (Nat × Int)) :
    List Nat → List (Nat × TEntry) × List (Nat × Int) × List Nat
  | [] => (tm, fired, [])
  | h :: rest =>
    match tGet tm h with
    | none => (tm, fired, h :: rest)
    | some e =>
      if e.expiration < now then
        let e1 : TEntry := { e with isInHeap := false }
        if e1.running then
          serviceGo now (tSet (tSet tm h e1) h { e1 with running := false })
            (fired ++ [(e1.action, e1.expiration)]) rest
        else serviceGo now (tSet tm h e1) fired rest
      else (tm, fired, h :: rest)

/-- `Timers.service`. -/
def serviceOp (now : Int) (ts : TimersState) : TimersState :=
  let r := serviceGo now ts.timers ts.fired ts.heap
  { timers := r.1, fired := r.2.1, heap := r.2.2 }

/-- One scheduler-facing operation. -/
inductive TOp
  | add (i action duration : Nat)
  | addBackoff (i action initial maximum multiplier : Nat)
  | addHourly (i action : Nat)
  | start (i : Nat) (now : Int)
  | reStart (i : Nat) (now : Int)
  | cancel (i : Nat)
  | expire (i : Nat) (now : Int)
  | service (now : Int)
  deriving DecidableEq, Repr

/-- Interpret one operation. -/
def tStep (ts : TimersState) : TOp → TimersState
  | .add i a d => addOp ts i a (.fixed d)
  | .addBackoff i a ini m mult => addOp ts i a (.backoff ini m mult none)
  | .addHourly i a => addOp ts i a .hourly
  | .start i now => startOp ts i now
  | .reStart i now => reStartOp ts i now
  | .cancel i => cancelOp ts i
  | .expire i now => expireOp ts i now
  | .service now => serviceOp now ts

/-- Run a sequence of operations from the empty scheduler. -/
def tRun (ops : List TOp) : TimersState := ops.foldl tStep {}

/-- A Python value passed positionally to `Timers.add`: all that
`callable()` distinguishes is a callable action from a numeric
duration. -/
inductive PyVal
  | action (a : Nat)
  | num (n : Nat)
  deriving DecidableEq, Repr

/-- Python `callable`. -/
def pyCallable : PyVal → Bool
  | .action _ => true
  | .num _ => false

/-- The argument normalization at the top of `Timers.add` (the `onetime`
argument is ignored by the source): when the second positional argument
is callable, the deprecated `(duration, action)` order was used and the
two are exchanged; the result is the `(action, duration)` pair handed
to `Timer`. -/
def timersAddArgs (action duration : PyVal) : PyVal × PyVal :=
  if pyCallable duration then (duration, action) else (action, duration)

/-! ## `ConnectHandler` completion delivery (`src/rhc/connect.py`) -/

/-- The completion plumbing of one outbound HTTP call: the `is_done`
guard set in `on_init`, the `is_timeout` flag, whether the inactivity
timer is running, whether `close` was requested, and the log of caller
callback invocations `(rc, result)`. -/
structure CState where
  isDone : Bool := false
  isTimeout : Bool := false
  timerRunning : Bool := true
  closed : Bool := false
  callbacks : List (Nat × Str) := []
  deriving DecidableEq, Repr

/-- `ConnectHandler.done`: if a completion was already delivered, do
nothing; otherwise set the guard, cancel the timer, invoke the caller's
callback once, and close the connection. -/
def done (c : CState) (rc : Nat) (result : Str) : CState :=
  if c.isDone then c
  else { c with isDone := true, timerRunning := false, closed := true,
                callbacks := c.callbacks ++ [(rc, result)] }

/-- The events that can reach a `ConnectHandler` after setup, each
routed to `done` exactly as the source routes it.
`httpDataWrapperFail` models the wrapper-raised branch of
`on_http_data`, whose missing `return` lets control fall through to the
final `done(result)`. -/
inductive CEvent
  | httpDataOk (result : Str)
  | httpDataFail (emsg : Str)
  | httpDataWrapperFail (emsg result : Str)
  | httpError
  | timeout
  | fail (reason : Str)
  | closeEv (reason : Str)
  | failedHandshake (reason : Str)
  deriving DecidableEq, Repr

/-- Deliver one event to the handler. -/
def cStep (c : CState) : CEvent → CState
  | .httpDataOk r => done c 0 r
  | .httpDataFail e => done c 1 e
  | .httpDataWrapperFail e r => done (done c 1 e) 0 r
  | .httpError => done c 1 (str "http error")
  | .timeout => done { c with isTimeout := true } 1 (str "timeout")
  | .fail reason => done c 1 reason
  | .closeEv reason => done c 0 reason
  | .failedHandshake reason => done c 1 reason

/-- Deliver a sequence of events. -/
def cRun (c : CState) (evs : List CEvent) : CState := evs.foldl cStep c

/-! ## Derived definitions used by the statements below -/

/-- The serialized header lines from the blank-line terminator onwards,
followed by the body: the byte stream a parser in the `header` state
sees. -/
def hdrLines (L : Dict) (b : Str) : Str :=
  match L with
  | [] => '\r' :: '\n' :: b
  | p :: rest => (p.1 ++ str ": " ++ p.2) ++ '\r' :: '\n' :: hdrLines rest b

/-- Insert a list of bindings in order (`dict.update`). -/
def dictSetList (d : Dict) (L : Dict) : Dict :=
  L.foldl (fun d p => dictSet d p.1 p.2) d

/-- The policy state of a `BackoffTimer(initial=10, maximum=30,
multiplier=2)` after `k` consecutive (non-restarting) starts. -/
def backoffPolicyAt : Nat → Policy
  | 0 => .backoff 10 30 2 none
  | k + 1 => (getDuration (backoffPolicyAt k) false 0).2

/-- The duration the `(k+1)`-th consecutive `start()` runs for. -/
def backoffDurAt (k : Nat) : Nat := (getDuration (backoffPolicyAt k) false 0).1

/-- Is this heap element a running timer? -/
def runningIn (tm : List (Nat × TEntry)) (i : Nat) : Bool :=
  ((tGet tm i).map (fun e => e.running)).getD false

/-- The expirations of the running timers along a given list. -/
def runningExpsL (tm : List (Nat × TEntry)) (heap : List Nat) : List Int :=
  (heap.filter (runningIn tm)).map (expOf tm)

/-- The expirations of the running timers along the scheduling list. -/
def runningExps (ts : TimersState) : List Int :=
  runningExpsL ts.timers ts.heap

/-- The actions fired by one `service()` call, oldest first, each with
the expiration it fired at. -/
def newlyFired (now : Int) (ts : TimersState) : List (Nat × Int) :=
  (serviceOp now ts).fired.drop ts.fired.length

/-- Structural well-formedness of the scheduler: no duplicate heap
entries, the `is_in_heap` flag tracks actual membership, every running
timer is flagged in-heap, and heap identities resolve. -/
def heapWF (ts : TimersState) : Prop :=
  ts.heap.Nodup ∧
  (∀ i e, tGet ts.timers i = some e →
    ((e.isInHeap = true ↔ i ∈ ts.heap) ∧ (e.running = true → e.isInHeap = true))) ∧
  (∀ i, i ∈ ts.heap → (tGet ts.timers i).isSome = true)

/-! # Theorems

First the shared helper lemmas, then one theorem per checked claim. -/

/-- Updating a timer makes it the one looked up under its identity. -/
theorem tGet_tSet_same (l : List (Nat × TEntry)) (i : Nat) (e : TEntry) :
    tGet (tSet l i e) i = some e := by
  induction l with
  | nil => simp [tSet, tGet]
  | cons p rest ih =>
    cases p with
    | mk j e0 =>
      simp only [tSet]
      by_cases h : j = i
      · simp [h, tGet]
      · simp [h, tGet, ih]

/-- Two successive updates of the same timer collapse to the second. -/
theorem tSet_tSet (l : List (Nat × TEntry)) (i : Nat) (a b : TEntry) :
    tSet (tSet l i a) i b = tSet l i b := by
  induction l with
  | nil => simp [tSet]
  | cons p r ih =>
    cases p with
    | mk j e0 =>
      simp only [tSet]
      by_cases hj : j = i
      · simp [hj, tSet]
      · simp [hj, tSet, ih]

/-- Updating one timer does not disturb another. -/
theorem tGet_tSet_other (l : List (Nat × TEntry)) (i j : Nat) (e : TEntry)
    (h : i ≠ j) : tGet (tSet l i e) j = tGet l j := by
  induction l with
  | nil => simp [tSet, tGet, h]
  | cons p rest ih =>
    cases p with
    | mk k e0 =>
      simp only [tSet]
      by_cases hk : k = i
      · subst hk
        simp [tGet, h]
      · simp only [if_neg hk, tGet]
        by_cases hkj : k = j
        · simp [hkj]
        · simp [hkj, ih]

/-- After four consecutive starts the backoff policy is pinned at the
maximum. -/
theorem backoffPolicyAt_stable :
    ∀ k, backoffPolicyAt (k + 3) = .backoff 10 30 2 (some 30) := by
  intro k
  induction k with
  | zero => rfl
  | succ n ih =>
    have h : n + 1 + 3 = (n + 3) + 1 := by omega
    rw [h, show backoffPolicyAt ((n + 3) + 1)
      = (getDuration (backoffPolicyAt (n + 3)) false 0).2 from rfl, ih]
    rfl

/-- **C3** — A backoff timer created with `initial=10, maximum=30,
`multiplier=2`, started again after each firing, uses the duration
sequence `10, 20, 30, 30, …`; `re_start()` makes `get_duration` return
the initial `10` whatever the stored duration is, and a `re_start` of
such a timer leaves it scheduled `10` ms out with its duration reset to
`10`. -/
theorem claim_c3_backoff_sequence :
    backoffDurAt 0 = 10 ∧ backoffDurAt 1 = 20 ∧
    (∀ k, 2 ≤ k → backoffDurAt k = 30) ∧
    (∀ (dur : Option Nat) (now : Int),
      (getDuration (.backoff 10 30 2 dur) true now).1 = 10) ∧
    (∀ (ts : TimersState) (i : Nat) (e : TEntry) (d : Option Nat) (now : Int),
      tGet ts.timers i = some e → e.policy = .backoff 10 30 2 d →
      e.isRestarting = false →
      ∃ e1, tGet (reStartOp ts i now).timers i = some e1 ∧
        e1.policy = .backoff 10 30 2 (some 10) ∧ e1.expiration = now + 10) := by
  refine ⟨rfl, rfl, ?_, ?_, ?_⟩
  · intro k hk
    match k, hk with
    | 2, _ => rfl
    | (n + 3), _ =>
      show (getDuration (backoffPolicyAt (n + 3)) false 0).1 = 30
      rw [backoffPolicyAt_stable]
      rfl
  · intro dur now
    cases dur <;> rfl
  · intro ts i e d now hget hpol hrst
    simp only [reStartOp, hget]
    have h1 : tGet (tSet ts.timers i
        { e with running := false, isRestarting := true }) i
        = some { e with running := false, isRestarting := true } :=
      tGet_tSet_same _ _ _
    simp only [startOp, h1, hpol]
    cases d <;> cases he : e.isInHeap <;>
      simp [he, getDuration, tGet_tSet_same]

/-- Witness for C3: the fourth start runs 30 ms, and a restart of a
backoff timer reschedules it `10` ms out with its duration reset. -/
theorem claim_c3_backoff_sequence_witness :
    backoffDurAt 3 = 30 ∧
    (∃ e1, tGet (reStartOp
        { timers := [(9, { action := 7, policy := .backoff 10 30 2 none })],
          heap := [], fired := [] } 9 500).timers 9 = some e1 ∧
      e1.policy = .backoff 10 30 2 (some 10) ∧ e1.expiration = 500 + 10) :=
  ⟨claim_c3_backoff_sequence.2.2.1 3 (by norm_num),
   claim_c3_backoff_sequence.2.2.2.2 _ 9 _ none 500 rfl rfl rfl⟩

/-- A completed handler never changes its guard or its callback log. -/
theorem cStep_done_frozen (c : CState) (ev : CEvent) (h : c.isDone = true) :
    (cStep c ev).isDone = true ∧ (cStep c ev).callbacks = c.callbacks := by
  cases ev <;> simp [cStep, done, h]

/-- Once `is_done` is set, further events leave the callback log alone. -/
theorem cRun_frozen (c : CState) (evs : List CEvent) (h : c.isDone = true) :
    (cRun c evs).callbacks = c.callbacks := by
  induction evs generalizing c with
  | nil => rfl
  | cons ev rest ih =>
    have hf := cStep_done_frozen c ev h
    simp only [cRun, List.foldl_cons] at *
    rw [ih _ hf.1, hf.2]

/-- The at-most-once invariant of `done` is preserved by every event. -/
theorem cStep_inv (c : CState) (ev : CEvent)
    (h : (c.isDone = false → c.callbacks = []) ∧ c.callbacks.length ≤ 1) :
    ((cStep c ev).isDone = false → (cStep c ev).callbacks = []) ∧
      (cStep c ev).callbacks.length ≤ 1 := by
  cases hd : c.isDone
  · have hcb := h.1 hd
    cases ev <;> simp [cStep, done, hd, hcb]
  · have hf := cStep_done_frozen c ev hd
    rw [hf.2]
    exact ⟨fun hfalse => (by rw [hf.1] at hfalse; cases hfalse), h.2⟩

/-- Invariant preservation along any event sequence. -/
theorem cRun_inv (c : CState) (evs : List CEvent)
    (h : (c.isDone = false → c.callbacks = []) ∧ c.callbacks.length ≤ 1) :
    (cRun c evs).callbacks.length ≤ 1 := by
  induction evs generalizing c with
  | nil => exact h.2
  | cons ev rest ih =>
    simp only [cRun, List.foldl_cons] at *
    exact ih _ (cStep_inv c ev h)

/-- **C9** — An outbound call delivers at most one completion: from a
fresh handler, any sequence of events invokes the caller's callback at
most once, and once `is_done` is set every further event (data, error,
timeout, close, …) adds nothing to the callback log. -/
theorem claim_c9_at_most_once :
    (∀ evs : List CEvent, (cRun {} evs).callbacks.length ≤ 1) ∧
    (∀ (c : CState) (evs : List CEvent), c.isDone = true →
      (cRun c evs).callbacks = c.callbacks) := by
  constructor
  · intro evs
    exact cRun_inv _ _ ⟨fun _ => rfl, by simp⟩
  · intro c evs h
    exact cRun_frozen c evs h

/-- Witness for C9: a delivered call (here a success) suppresses the
callback on the later timeout and close events. -/
theorem claim_c9_at_most_once_witness :
    (cRun {} [CEvent.httpDataOk (str "ok")]).isDone = true ∧
      (cRun (cRun {} [CEvent.httpDataOk (str "ok")])
        [CEvent.timeout, CEvent.closeEv (str "remote close")]).callbacks
        = (cRun {} [CEvent.httpDataOk (str "ok")]).callbacks :=
  ⟨by decide, claim_c9_at_most_once.2 _ _ (by decide)⟩

/-- **C10** — `Timers.add` also accepts the deprecated
`(duration, action)` order: when the second positional argument is
callable the two are exchanged, so `add(d, a)` with callable `a` builds
the same `(action, duration)` pair as `add(a, d)`. -/
theorem claim_c10_add_swapped_args (a d : PyVal) (ha : pyCallable a = true)
    (hd : pyCallable d = false) : timersAddArgs d a = timersAddArgs a d := by
  simp [timersAddArgs, ha, hd]

/-- Witness for C10 at `a = action 3`, `d = 500`. -/
theorem claim_c10_add_swapped_args_witness :
    pyCallable (.action 3) = true ∧ pyCallable (.num 500) = false ∧
      timersAddArgs (.num 500) (.action 3) = timersAddArgs (.action 3) (.num 500) :=
  ⟨by decide, by decide,
    claim_c10_add_swapped_args (.action 3) (.num 500) (by decide) (by decide)⟩

/-! ### Scheduler structure lemmas (C4, C5) -/

/-- Membership through an ordered insert. -/
theorem mem_heapInsert (tm : List (Nat × TEntry)) (i j : Nat) (l : List Nat) :
    j ∈ heapInsert tm i l ↔ j = i ∨ j ∈ l := by
  induction l with
  | nil => simp [heapInsert]
  | cons k rest ih =>
    simp only [heapInsert]
    split
    · simp only [List.mem_cons]
    · simp only [List.mem_cons, ih]
      tauto

/-- An ordered insert of a fresh identity keeps the list duplicate-free. -/
theorem heapInsert_nodup (tm : List (Nat × TEntry)) (i : Nat) (l : List Nat)
    (hni : i ∉ l) (h : l.Nodup) : (heapInsert tm i l).Nodup := by
  induction l with
  | nil => simp [heapInsert]
  | cons k rest ih =>
    simp only [heapInsert]
    have hk : k ∉ rest := (List.nodup_cons.mp h).1
    have hir : i ∉ rest := fun hm => hni (List.mem_cons_of_mem _ hm)
    split
    · exact List.nodup_cons.mpr ⟨hni, h⟩
    · refine List.nodup_cons.mpr ⟨?_, ih hir (List.nodup_cons.mp h).2⟩
      intro hm
      rcases (mem_heapInsert tm i k rest).mp hm with h1 | h1
      · exact hni (h1 ▸ List.mem_cons_self _ _)
      · exact hk h1

/-- Membership through the in-place sort. -/
theorem mem_heapSort (tm : List (Nat × TEntry)) (j : Nat) (l : List Nat) :
    j ∈ heapSort tm l ↔ j ∈ l := by
  induction l with
  | nil => simp [heapSort]
  | cons k rest ih =>
    show j ∈ heapInsert tm k (heapSort tm rest) ↔ _
    rw [mem_heapInsert, ih]
    simp [List.mem_cons]

/-- Sorting keeps the list duplicate-free. -/
theorem heapSort_nodup (tm : List (Nat × TEntry)) (l : List Nat)
    (h : l.Nodup) : (heapSort tm l).Nodup := by
  induction l with
  | nil => simp [heapSort]
  | cons k rest ih =>
    show (heapInsert tm k (heapSort tm rest)).Nodup
    have hk : k ∉ rest := (List.nodup_cons.mp h).1
    exact heapInsert_nodup tm k _ (fun hm => hk ((mem_heapSort tm k rest).mp hm))
      (ih (List.nodup_cons.mp h).2)

/-- Replacing one timer's state with flags that respect the invariant
preserves well-formedness when the heap itself is untouched. -/
theorem tSet_WF (ts : TimersState) (i : Nat) (e e1 : TEntry)
    (hget : tGet ts.timers i = some e) (hih : e1.isInHeap = e.isInHeap)
    (hrun : e1.running = true → e1.isInHeap = true)
    (hWF : heapWF ts) : heapWF { ts with timers := tSet ts.timers i e1 } := by
  obtain ⟨hnd, hflag, hres⟩ := hWF
  refine ⟨hnd, ?_, ?_⟩
  · intro j ej hj
    by_cases hji : j = i
    · subst hji
      rw [tGet_tSet_same] at hj
      cases hj
      exact ⟨hih ▸ (hflag j e hget).1, hrun⟩
    · rw [tGet_tSet_other _ _ _ _ (fun hh => hji hh.symm)] at hj
      exact hflag j ej hj
  · intro j hj
    by_cases hji : j = i
    · subst hji
      rw [tGet_tSet_same]
      rfl
    · rw [tGet_tSet_other _ _ _ _ (fun hh => hji hh.symm)]
      exact hres j hj

/-- `add` preserves well-formedness. -/
theorem addOp_WF (ts : TimersState) (i a : Nat) (p : Policy)
    (hWF : heapWF ts) : heapWF (addOp ts i a p) := by
  obtain ⟨hnd, hflag, hres⟩ := hWF
  simp only [addOp]
  cases hget : tGet ts.timers i with
  | some e => exact ⟨hnd, hflag, hres⟩
  | none =>
    have hni : i ∉ ts.heap := fun hm => by
      have := hres i hm
      rw [hget] at this
      cases this
    refine ⟨hnd, ?_, ?_⟩
    · intro j ej hj
      by_cases hji : j = i
      · subst hji
        rw [tGet_tSet_same] at hj
        cases hj
        constructor
        · constructor
          · intro hfalse; cases hfalse
          · intro hm; exact absurd hm hni
        · intro hfalse; cases hfalse
      · rw [tGet_tSet_other _ _ _ _ (fun hh => hji hh.symm)] at hj
        exact hflag j ej hj
    · intro j hj
      by_cases hji : j = i
      · subst hji
        rw [tGet_tSet_same]
        rfl
      · rw [tGet_tSet_other _ _ _ _ (fun hh => hji hh.symm)]
        exact hres j hj

/-- `start` preserves well-formedness. -/
theorem startOp_WF (ts : TimersState) (i : Nat) (now : Int)
    (hWF : heapWF ts) : heapWF (startOp ts i now) := by
  obtain ⟨hnd, hflag, hres⟩ := hWF
  simp only [startOp]
  cases hget : tGet ts.timers i with
  | none => exact ⟨hnd, hflag, hres⟩
  | some e =>
    by_cases hrun : e.running
    · simp only [hrun, if_true]
      exact ⟨hnd, hflag, hres⟩
    · simp only [hrun, if_false, Bool.false_eq_true]
      cases hih : e.isInHeap
      · simp only [Bool.false_eq_true, if_false]
        have hni : i ∉ ts.heap := fun hm =>
          by simpa [hih] using (hflag i e hget).1.mpr hm
        refine ⟨heapInsert_nodup _ _ _ hni hnd, ?_, ?_⟩
        · intro j ej hj
          by_cases hji : j = i
          · subst hji
            rw [tGet_tSet_same] at hj
            cases hj
            refine ⟨?_, fun _ => rfl⟩
            simp [mem_heapInsert]
          · rw [tGet_tSet_other _ _ _ _ (fun hh => hji hh.symm)] at hj
            have h2 := hflag j ej hj
            refine ⟨?_, h2.2⟩
            rw [h2.1, mem_heapInsert]
            constructor
            · exact fun hm => Or.inr hm
            · rintro (hji2 | hm)
              · exact absurd hji2 hji
              · exact hm
        · intro j hj
          rcases (mem_heapInsert _ _ _ _).mp hj with hji | hm
          · subst hji
            rw [tGet_tSet_same]
            rfl
          · by_cases hji : j = i
            · subst hji
              rw [tGet_tSet_same]
              rfl
            · rw [tGet_tSet_other _ _ _ _ (fun hh => hji hh.symm)]
              exact hres j hm
      · simp only [if_true]
        have hmem : i ∈ ts.heap := (hflag i e hget).1.mp hih
        refine ⟨heapSort_nodup _ _ hnd, ?_, ?_⟩
        · intro j ej hj
          by_cases hji : j = i
          · subst hji
            rw [tGet_tSet_same] at hj
            cases hj
            refine ⟨?_, fun _ => rfl⟩
            simp only [mem_heapSort, true_iff]
            exact hmem
          · rw [tGet_tSet_other _ _ _ _ (fun hh => hji hh.symm)] at hj
            have h2 := hflag j ej hj
            exact ⟨by rw [h2.1, mem_heapSort], h2.2⟩
        · intro j hj
          rw [mem_heapSort] at hj
          by_cases hji : j = i
          · subst hji
            rw [tGet_tSet_same]
            rfl
          · rw [tGet_tSet_other _ _ _ _ (fun hh => hji hh.symm)]
            exact hres j hj

/-- `re_start` preserves well-formedness. -/
theorem reStartOp_WF (ts : TimersState) (i : Nat) (now : Int)
    (hWF : heapWF ts) : heapWF (reStartOp ts i now) := by
  simp only [reStartOp]
  split
  · exact hWF
  · rename_i e hget
    have h1 := tSet_WF ts i e
      { e with running := false, isRestarting := true } hget rfl
      (fun hh => by cases hh) hWF
    have h2 := startOp_WF _ i now h1
    split
    · exact h2
    · rename_i e2 hget2
      exact tSet_WF _ i e2 _ hget2 rfl (fun hh => (h2.2.1 i e2 hget2).2 hh) h2

/-- `cancel` preserves well-formedness. -/
theorem cancelOp_WF (ts : TimersState) (i : Nat)
    (hWF : heapWF ts) : heapWF (cancelOp ts i) := by
  simp only [cancelOp]
  cases hget : tGet ts.timers i with
  | none => exact hWF
  | some e =>
    by_cases hrun : e.running
    · simp only [hrun, if_true]
      exact tSet_WF ts i e _ hget rfl (fun hh => by cases hh) hWF
    · simp only [hrun, Bool.false_eq_true, if_false]
      exact hWF

/-- `expire` preserves well-formedness. -/
theorem expireOp_WF (ts : TimersState) (i : Nat) (now : Int)
    (hWF : heapWF ts) : heapWF (expireOp ts i now) := by
  simp only [expireOp]
  cases hget : tGet ts.timers i with
  | none => exact hWF
  | some e =>
    by_cases hrun : e.running
    · simp only [hrun, if_true]
      exact tSet_WF ts i e _ hget rfl
        (fun _ => (hWF.2.1 i e hget).2 hrun) hWF
    · simp only [hrun, Bool.false_eq_true, if_false]
      exact hWF

/-! ### Incremental parsing (C2) -/

/-- Buffer length as an integer is non-negative. -/
theorem pyLen_nonneg (d : Str) : 0 ≤ pyLen d := Int.natCast_nonneg _

/-- Python `s[n:]` never lengthens a string. -/
theorem pySliceFrom_length_le (d : Str) (n : Int) :
    (pySliceFrom d n).length ≤ d.length := by
  simp only [pySliceFrom]
  split <;> simp

/-- For a non-negative in-range `n`, `s[:n]` ignores appended bytes. -/
theorem pySliceTo_append (d x : Str) (n : Int) (h0 : 0 ≤ n) (hle : n ≤ pyLen d) :
    pySliceTo (d ++ x) n = pySliceTo d n := by
  simp only [pySliceTo, if_pos h0]
  have h : n.toNat ≤ d.length := by
    simp only [pyLen] at hle
    omega
  exact List.take_append_of_le_length h

/-- For a non-negative in-range `n`, `(s ++ x)[n:] = s[n:] ++ x`. -/
theorem pySliceFrom_append (d x : Str) (n : Int) (h0 : 0 ≤ n) (hle : n ≤ pyLen d) :
    pySliceFrom (d ++ x) n = pySliceFrom d n ++ x := by
  simp only [pySliceFrom, if_pos h0]
  have h : n.toNat ≤ d.length := by
    simp only [pyLen] at hle
    omega
  exact List.drop_append_of_le_length h

/-- Appending bytes past the first separator occurrence does not change
the split. -/
theorem splitFirst_append_some {c : Char} {d l r : Str} (x : Str)
    (h : splitFirst c d = some (l, r)) :
    splitFirst c (d ++ x) = some (l, r ++ x) := by
  obtain ⟨hd, hnl⟩ := splitFirst_sound h
  subst hd
  rw [List.append_assoc]
  exact splitFirst_of_append hnl

/-- A successful `__line` call only consumes buffered bytes: every other
field survives, and the buffer strictly shrinks. -/
theorem getLine_line (cfg : Cfg) (s : HState) (l : Str) (s1 : HState)
    (h : getLine cfg s = (.line l, s1)) :
    s1 = { s with data := s1.data } ∧ s1.data.length < s.data.length := by
  cases hsp : splitFirst '\n' s.data with
  | none =>
    simp only [getLine, hsp] at h
    split at h <;> cases h
  | some p =>
    obtain ⟨l0, rest⟩ := p
    simp only [getLine, hsp] at h
    have hlen := splitFirst_shrink hsp
    repeat' split at h
    all_goals cases h
    all_goals exact ⟨rfl, hlen⟩

/-- `close` always leaves the connection closed. -/
theorem closeConn_closed (cfg : Cfg) (s : HState) :
    (closeConn cfg s).closed = true := by
  simp only [closeConn]
  split
  · assumption
  · split
    · simp [onHttpDataFire]
    · rfl

/-- A fatal parse error always leaves the connection closed. -/
theorem fatal_closed (cfg : Cfg) (s : HState) (m : Str) :
    (fatal cfg s m).closed = true := closeConn_closed cfg _

/-- A complete line is read the same way after more bytes arrive, the
extra bytes staying in the buffer. -/
theorem getLine_append (cfg : Cfg) (s : HState) (l : Str) (t : HState) (x : Str)
    (h : getLine cfg s = (.line l, t)) :
    getLine cfg (addData s x) = (.line l, addData t x) := by
  cases hsp : splitFirst '\n' s.data with
  | none =>
    simp only [getLine, hsp] at h
    split at h <;> cases h
  | some p =>
    obtain ⟨l0, rest⟩ := p
    have hsp2 : splitFirst '\n' (s.data ++ x) = some (l0, rest ++ x) :=
      splitFirst_append_some x hsp
    simp only [getLine, hsp] at h
    simp only [getLine, addData, hsp2]
    split at h
    · rename_i hl0
      cases h
      rw [if_pos hl0]
    · rename_i hl0
      rw [if_neg hl0]
      split at h
      · rename_i hcr
        split at h
        · cases h
        · rename_i hlen
          cases h
          rw [if_pos hcr, if_neg hlen]
      · rename_i hcr
        split at h
        · cases h
        · rename_i hlen
          cases h
          rw [if_neg hcr, if_neg hlen]

/-- No parse state ranks above one. -/
theorem rank_le_one (p : PState) : rank p ≤ 1 := by
  cases p <;> simp [rank]

/-- A completed fixed-length body leaves a shorter buffer and resets the
parse position. -/
theorem content_true (cfg : Cfg) (s s1 : HState)
    (h : content cfg s = (true, s1)) :
    s1.data.length ≤ s.data.length ∧ s1.state = .status := by
  simp only [content] at h
  split at h
  · cases h
    refine ⟨?_, rfl⟩
    simp only [setup, onHttpDataFire]
    exact pySliceFrom_length_le _ _
  · cases h

/-- A successful `_end_header` never lengthens the buffer. -/
theorem endHeader_data_le (cfg : Cfg) (s s1 : HState)
    (h : endHeader cfg s = (true, s1)) :
    s1.data.length ≤ s.data.length := by
  simp only [endHeader, content] at h
  repeat' split at h
  all_goals cases h
  all_goals simp only [setup, onHttpDataFire]
  all_goals exact le_refl _

/-- Every `true` step strictly decreases the parse measure. -/
theorem step_mu (cfg : Cfg) (s s1 : HState) (h : step cfg s = (true, s1)) :
    mu s1 < mu s := by
  have hronly : ∀ p, rank p ≤ 1 := rank_le_one
  cases hst : s.state <;> simp only [step, hst] at h
  case status =>
    cases hget : getLine cfg s with
    | mk res t =>
      cases res with
      | err => simp [status, hget] at h
      | more => simp [status, hget] at h
      | line l =>
        simp only [status, hget] at h
        obtain ⟨ht, hlen⟩ := getLine_line cfg s l t hget
        repeat' split at h
        all_goals cases h
        all_goals simp only [mu, rank, hst]
        all_goals omega
  case header =>
    cases hget : getLine cfg s with
    | mk res t =>
      cases res with
      | err => simp [header, hget] at h
      | more => simp [header, hget] at h
      | line l =>
        obtain ⟨ht, hlen⟩ := getLine_line cfg s l t hget
        cases l with
        | nil =>
          simp only [header, hget] at h
          have hd := endHeader_data_le cfg t s1 h
          have hr := hronly s1.state
          have hh0 : rank PState.header = 0 := rfl
          simp only [mu, hst, hh0]
          omega
        | cons a l2 =>
          simp only [header, hget] at h
          have hts : t.state = s.state := by rw [ht]
          repeat' split at h
          all_goals cases h
          all_goals simp only [mu, rank, hst, hts]
          all_goals omega
  case content =>
    obtain ⟨hd, hs⟩ := content_true cfg s s1 h
    simp only [mu, hst, hs, rank]
    omega
  case chunkedLength =>
    cases hget : getLine cfg s with
    | mk res t =>
      cases res with
      | err => simp [chunkedLength, hget] at h
      | more => simp [chunkedLength, hget] at h
      | line l =>
        simp only [chunkedLength, hget] at h
        obtain ⟨ht, hlen⟩ := getLine_line cfg s l t hget
        repeat' split at h
        all_goals cases h
        all_goals simp only [mu, rank, hst]
        all_goals omega
  case chunkedContent =>
    rw [chunkedContent] at h
    split at h
    · cases h
      have hd := pySliceFrom_length_le s.data s.length
      simp only [mu, rank, hst]
      omega
    · cases h
  case chunkedContentEnd =>
    cases hget : getLine cfg s with
    | mk res t =>
      cases res with
      | err => simp [chunkedContentEnd, hget] at h
      | more => simp [chunkedContentEnd, hget] at h
      | line l =>
        simp only [chunkedContentEnd, hget] at h
        obtain ⟨ht, hlen⟩ := getLine_line cfg s l t hget
        split at h
        · cases h
          simp only [mu, rank, hst]
          omega
        · cases h
  case footer =>
    cases hget : getLine cfg s with
    | mk res t =>
      cases res with
      | err => simp [footer, hget] at h
      | more => simp [footer, hget] at h
      | line l =>
        obtain ⟨ht, hlen⟩ := getLine_line cfg s l t hget
        cases l with
        | nil =>
          simp only [footer, hget] at h
          cases h
          simp only [mu, rank, hst, setup, onHttpDataFire]
          omega
        | cons a l2 =>
          simp only [footer, hget] at h
          have hts : t.state = s.state := by rw [ht]
          repeat' split at h
          all_goals cases h
          all_goals simp only [mu, rank, hst, hts]
          all_goals omega
  case identity =>
    simp at h

/-- A `None` from `__line` leaves the handler untouched. -/
theorem getLine_more (cfg : Cfg) (s t : HState)
    (h : getLine cfg s = (.more, t)) : t = s := by
  cases hsp : splitFirst '\n' s.data with
  | none =>
    simp only [getLine, hsp] at h
    split at h
    · cases h
    · cases h
      rfl
  | some p =>
    obtain ⟨l0, rest⟩ := p
    simp only [getLine, hsp] at h
    repeat' split at h
    all_goals cases h

/-- An error from `__line` closes the connection. -/
theorem getLine_err (cfg : Cfg) (s t : HState)
    (h : getLine cfg s = (.err, t)) : t.closed = true := by
  cases hsp : splitFirst '\n' s.data with
  | none =>
    simp only [getLine, hsp] at h
    split at h
    · cases h
      exact fatal_closed cfg _ _
    · cases h
  | some p =>
    obtain ⟨l0, rest⟩ := p
    simp only [getLine, hsp] at h
    repeat' split at h
    all_goals cases h
    all_goals exact fatal_closed cfg _ _

/-- When `_end_header` stops the loop it has closed the connection. -/
theorem endHeader_false_closed (cfg : Cfg) (t s1 : HState)
    (h : endHeader cfg t = (false, s1)) : s1.closed = true := by
  simp only [endHeader, content] at h
  repeat' split at h
  all_goals cases h
  all_goals exact fatal_closed cfg _ _

/-- A stalled, non-closing step leaves the state untouched: the parser
is waiting for more bytes. -/
theorem step_stall (cfg : Cfg) (s s1 : HState)
    (h : step cfg s = (false, s1)) (hcl : s1.closed = false) : s1 = s := by
  cases hst : s.state <;> simp only [step, hst] at h
  case status =>
    cases hget : getLine cfg s with
    | mk res t =>
      cases res with
      | err =>
        simp only [status, hget] at h
        cases h
        rw [getLine_err cfg s _ hget] at hcl
        cases hcl
      | more =>
        simp only [status, hget] at h
        cases h
        exact getLine_more cfg s s1 hget
      | line l =>
        simp only [status, hget] at h
        repeat' split at h
        all_goals cases h
        all_goals rw [fatal_closed] at hcl
        all_goals cases hcl
  case header =>
    cases hget : getLine cfg s with
    | mk res t =>
      cases res with
      | err =>
        simp only [header, hget] at h
        cases h
        rw [getLine_err cfg s _ hget] at hcl
        cases hcl
      | more =>
        simp only [header, hget] at h
        cases h
        exact getLine_more cfg s s1 hget
      | line l =>
        cases l with
        | nil =>
          simp only [header, hget] at h
          rw [endHeader_false_closed cfg t s1 h] at hcl
          cases hcl
        | cons a l2 =>
          simp only [header, hget] at h
          repeat' split at h
          all_goals cases h
          all_goals rw [fatal_closed] at hcl
          all_goals cases hcl
  case content =>
    rw [content] at h
    split at h
    · cases h
    · cases h
      rfl
  case chunkedLength =>
    cases hget : getLine cfg s with
    | mk res t =>
      cases res with
      | err =>
        simp only [chunkedLength, hget] at h
        cases h
        rw [getLine_err cfg s _ hget] at hcl
        cases hcl
      | more =>
        simp only [chunkedLength, hget] at h
        cases h
        exact getLine_more cfg s s1 hget
      | line l =>
        simp only [chunkedLength, hget] at h
        repeat' split at h
        all_goals cases h
        all_goals rw [fatal_closed] at hcl
        all_goals cases hcl
  case chunkedContent =>
    rw [chunkedContent] at h
    split at h
    · cases h
    · cases h
      rfl
  case chunkedContentEnd =>
    cases hget : getLine cfg s with
    | mk res t =>
      cases res with
      | err =>
        simp only [chunkedContentEnd, hget] at h
        cases h
        rw [getLine_err cfg s _ hget] at hcl
        cases hcl
      | more =>
        simp only [chunkedContentEnd, hget] at h
        cases h
        exact getLine_more cfg s s1 hget
      | line l =>
        simp only [chunkedContentEnd, hget] at h
        split at h
        · cases h
        · cases h
          rw [fatal_closed] at hcl
          cases hcl
  case footer =>
    cases hget : getLine cfg s with
    | mk res t =>
      cases res with
      | err =>
        simp only [footer, hget] at h
        cases h
        rw [getLine_err cfg s _ hget] at hcl
        cases hcl
      | more =>
        simp only [footer, hget] at h
        cases h
        exact getLine_more cfg s s1 hget
      | line l =>
        cases l with
        | nil =>
          simp only [footer, hget] at h
          cases h
        | cons a l2 =>
          simp only [footer, hget] at h
          repeat' split at h
          all_goals cases h
          all_goals rw [fatal_closed] at hcl
          all_goals cases hcl
  case identity =>
    cases h
    rfl

/-- Above the measure, the loop result does not depend on the fuel. -/
theorem loopF_irrel (cfg : Cfg) :
    ∀ (m : Nat) (s : HState), mu s ≤ m →
    ∀ f1 f2, mu s < f1 → mu s < f2 → loopF cfg f1 s = loopF cfg f2 s := by
  intro m
  induction m with
  | zero =>
    intro s hm f1 f2 h1 h2
    obtain ⟨a, rfl⟩ : ∃ a, f1 = a + 1 := ⟨f1 - 1, by omega⟩
    obtain ⟨b, rfl⟩ : ∃ b, f2 = b + 1 := ⟨f2 - 1, by omega⟩
    simp only [loopF]
    cases hstep : step cfg s with
    | mk b1 s1 =>
      cases b1
      · rfl
      · have := step_mu cfg s s1 hstep
        omega
  | succ n ih =>
    intro s hm f1 f2 h1 h2
    obtain ⟨a, rfl⟩ : ∃ a, f1 = a + 1 := ⟨f1 - 1, by omega⟩
    obtain ⟨b, rfl⟩ : ∃ b, f2 = b + 1 := ⟨f2 - 1, by omega⟩
    simp only [loopF]
    cases hstep : step cfg s with
    | mk b1 s1 =>
      cases b1
      · rfl
      · have hmu := step_mu cfg s s1 hstep
        exact ih s1 (by omega) a b (by omega) (by omega)

/-- One progressing step off the front of the loop. -/
theorem runLoop_true (cfg : Cfg) (s s1 : HState)
    (h : step cfg s = (true, s1)) : runLoop cfg s = runLoop cfg s1 := by
  have hmu := step_mu cfg s s1 h
  show loopF cfg (mu s + 1) s = loopF cfg (mu s1 + 1) s1
  have h1 : loopF cfg (mu s + 1) s = loopF cfg (mu s) s1 := by
    simp only [loopF, h]
  rw [h1]
  exact loopF_irrel cfg (mu s1) s1 (le_refl _) _ _ (by omega) (by omega)

/-- The loop stops at the first `False` step. -/
theorem runLoop_false (cfg : Cfg) (s s1 : HState)
    (h : step cfg s = (false, s1)) : runLoop cfg s = s1 := by
  show loopF cfg (mu s + 1) s = s1
  simp only [loopF, h]

/-- Fuel-irrelevance of the loop length check. -/
theorem loopOkF_irrel (cfg : Cfg) :
    ∀ (m : Nat) (s : HState), mu s ≤ m →
    ∀ f1 f2, mu s < f1 → mu s < f2 → loopOkF cfg f1 s = loopOkF cfg f2 s := by
  intro m
  induction m with
  | zero =>
    intro s hm f1 f2 h1 h2
    obtain ⟨a, rfl⟩ : ∃ a, f1 = a + 1 := ⟨f1 - 1, by omega⟩
    obtain ⟨b, rfl⟩ : ∃ b, f2 = b + 1 := ⟨f2 - 1, by omega⟩
    simp only [loopOkF]
    cases hstep : step cfg s with
    | mk b1 s1 =>
      cases b1
      · rfl
      · have := step_mu cfg s s1 hstep
        omega
  | succ n ih =>
    intro s hm f1 f2 h1 h2
    obtain ⟨a, rfl⟩ : ∃ a, f1 = a + 1 := ⟨f1 - 1, by omega⟩
    obtain ⟨b, rfl⟩ : ∃ b, f2 = b + 1 := ⟨f2 - 1, by omega⟩
    simp only [loopOkF]
    cases hstep : step cfg s with
    | mk b1 s1 =>
      cases b1
      · rfl
      · have hmu := step_mu cfg s s1 hstep
        simp only [ih s1 (by omega) a b (by omega) (by omega)]

/-- The length check across one progressing step. -/
theorem runLoopOk_true (cfg : Cfg) (s s1 : HState)
    (h : step cfg s = (true, s1)) :
    runLoopOk cfg s = (decide (0 ≤ s.length) && runLoopOk cfg s1) := by
  have hmu := step_mu cfg s s1 h
  show loopOkF cfg (mu s + 1) s = _
  simp only [loopOkF, h]
  rw [loopOkF_irrel cfg (mu s1) s1 (le_refl _) (mu s) (mu s1 + 1) (by omega) (by omega)]
  rfl

/-- The length check at a stopping step. -/
theorem runLoopOk_false (cfg : Cfg) (s s1 : HState)
    (h : step cfg s = (false, s1)) :
    runLoopOk cfg s = decide (0 ≤ s.length) := by
  show loopOkF cfg (mu s + 1) s = _
  simp only [loopOkF, h]
  exact Bool.and_true _

/-- `len` is additive across concatenation. -/
theorem pyLen_append (d x : Str) : pyLen (d ++ x) = pyLen d + pyLen x := by
  simp [pyLen]

/-- Python `s[:len(s)]` is `s` itself. -/
theorem pySliceTo_full (d : Str) : pySliceTo d (pyLen d) = d := by
  simp [pySliceTo, pyLen]

/-- Python `s[len(s):]` is empty. -/
theorem pySliceFrom_full (d : Str) : pySliceFrom d (pyLen d) = [] := by
  simp [pySliceFrom, pyLen]

/-- A successful `_end_header` commutes with later-arriving bytes when
the maximum-content check is disabled. -/
theorem endHeader_append (cfg : Cfg) (t t1 : HState) (x : Str)
    (hmax : ∀ v, maxContentCheck cfg v = false)
    (h : endHeader cfg t = (true, t1)) :
    endHeader cfg (addData t x) = (true, addData t1 x) := by
  simp only [endHeader, content, addData, hmax, Bool.false_eq_true, if_false,
    ge_iff_le, pyLen_nonneg, if_true] at h ⊢
  repeat' split
  all_goals simp [*] at h
  all_goals subst h
  all_goals first | rfl | simp [*, addData]

set_option maxHeartbeats 1000000 in
theorem step_append (cfg : Cfg) (s s1 : HState) (x : Str)
    (hmax : ∀ v, maxContentCheck cfg v = false)
    (hlen : 0 ≤ s.length)
    (h : step cfg s = (true, s1)) :
    step cfg (addData s x) = (true, addData s1 x) := by
  have hst2 : (addData s x).state = s.state := rfl
  cases hst : s.state <;> simp only [step, hst] at h <;>
    simp only [step, hst2, hst]
  case status =>
    cases hget : getLine cfg s with
    | mk res t =>
      cases res with
      | err => simp [status, hget] at h
      | more => simp [status, hget] at h
      | line l =>
        have hget2 := getLine_append cfg s l t x hget
        simp only [status, hget] at h
        simp only [status, hget2]
        repeat' split
        all_goals simp [*] at h
        all_goals subst h
        all_goals first | rfl | simp [*, addData]
  case header =>
    cases hget : getLine cfg s with
    | mk res t =>
      cases res with
      | err => simp [header, hget] at h
      | more => simp [header, hget] at h
      | line l =>
        have hget2 := getLine_append cfg s l t x hget
        cases l with
        | nil =>
          simp only [header, hget] at h
          simp only [header, hget2]
          exact endHeader_append cfg t s1 x hmax h
        | cons a l2 =>
          simp only [header, hget] at h
          simp only [header, hget2]
          simp only [addData]
          repeat' split
          all_goals simp [*] at h
          all_goals subst h
          all_goals first | rfl | simp [*, addData]
  case content =>
    simp only [content] at h
    simp only [content, addData]
    split at h
    · rename_i hge
      cases h
      have hge2 : pyLen (s.data ++ x) ≥ s.length := by
        rw [pyLen_append]
        have := pyLen_nonneg x
        omega
      rw [if_pos hge2]
      rw [pySliceTo_append s.data x s.length hlen hge]
      simp only [Prod.mk.injEq, true_and, setup, onHttpDataFire, addData]
      rw [pySliceFrom_append s.data x s.length hlen hge]
    · cases h
  case chunkedLength =>
    cases hget : getLine cfg s with
    | mk res t =>
      cases res with
      | err => simp [chunkedLength, hget] at h
      | more => simp [chunkedLength, hget] at h
      | line l =>
        have hget2 := getLine_append cfg s l t x hget
        simp only [chunkedLength, hget, hmax, Bool.false_eq_true, if_false] at h
        simp only [chunkedLength, hget2, hmax, Bool.false_eq_true, if_false]
        repeat' split
        all_goals simp [*] at h
        all_goals subst h
        all_goals first | rfl | simp [*, addData]
  case chunkedContent =>
    simp only [chunkedContent] at h
    simp only [chunkedContent, addData]
    split at h
    · rename_i hge
      cases h
      have hge2 : pyLen (s.data ++ x) ≥ s.length := by
        rw [pyLen_append]
        have := pyLen_nonneg x
        omega
      rw [if_pos hge2]
      rw [pySliceTo_append s.data x s.length hlen hge]
      rw [pySliceFrom_append s.data x s.length hlen hge]
    · cases h
  case chunkedContentEnd =>
    cases hget : getLine cfg s with
    | mk res t =>
      cases res with
      | err => simp [chunkedContentEnd, hget] at h
      | more => simp [chunkedContentEnd, hget] at h
      | line l =>
        have hget2 := getLine_append cfg s l t x hget
        simp only [chunkedContentEnd, hget] at h
        simp only [chunkedContentEnd, hget2]
        split at h
        · rename_i hl
          cases h
          rw [if_pos hl]
          rfl
        · rename_i hl
          cases h
  case footer =>
    cases hget : getLine cfg s with
    | mk res t =>
      cases res with
      | err => simp [footer, hget] at h
      | more => simp [footer, hget] at h
      | line l =>
        have hget2 := getLine_append cfg s l t x hget
        cases l with
        | nil =>
          simp only [footer, hget] at h
          simp only [footer, hget2]
          cases h
          rfl
        | cons a l2 =>
          simp only [footer, hget] at h
          simp only [footer, hget2]
          simp only [addData]
          repeat' split
          all_goals simp [*] at h
          all_goals subst h
          all_goals first | rfl | simp [*, addData]
  case identity =>
    cases h

/-- Running the loop and then appending more bytes commutes with
appending first, when the run keeps lengths non-negative and does not
close the connection. -/
theorem runLoop_addData (cfg : Cfg) (hmax : ∀ v, maxContentCheck cfg v = false) :
    ∀ (m : Nat) (s : HState), mu s ≤ m → runLoopOk cfg s = true →
      (runLoop cfg s).closed = false → ∀ x,
      runLoop cfg (addData s x) = runLoop cfg (addData (runLoop cfg s) x) := by
  intro m
  induction m with
  | zero =>
    intro s hm hok hcl x
    cases hstep : step cfg s with
    | mk b s1 =>
      cases b
      · have hrl := runLoop_false cfg s s1 hstep
        rw [hrl] at hcl ⊢
        rw [step_stall cfg s s1 hstep hcl]
      · have := step_mu cfg s s1 hstep
        omega
  | succ n ih =>
    intro s hm hok hcl x
    cases hstep : step cfg s with
    | mk b s1 =>
      cases b
      · have hrl := runLoop_false cfg s s1 hstep
        rw [hrl] at hcl ⊢
        rw [step_stall cfg s s1 hstep hcl]
      · have hoke := runLoopOk_true cfg s s1 hstep
        rw [hok] at hoke
        have hparts := (Bool.and_eq_true _ _).mp hoke.symm
        have hlen : 0 ≤ s.length := of_decide_eq_true hparts.1
        have hmu := step_mu cfg s s1 hstep
        have hsa := step_append cfg s s1 x hmax hlen hstep
        rw [runLoop_true cfg (addData s x) (addData s1 x) hsa]
        rw [runLoop_true cfg s s1 hstep] at hcl ⊢
        exact ih s1 (by omega) hparts.2 hcl x

/-- Two successive `on_data` calls behave like one call with the
concatenated bytes. -/
theorem onData_comp (cfg : Cfg) (hmax : ∀ v, maxContentCheck cfg v = false)
    (s : HState) (d y : Str) (hcl : s.closed = false)
    (hok : runLoopOk cfg (addData s d) = true)
    (hcl2 : (onData cfg s d).closed = false) :
    onData cfg (onData cfg s d) y = onData cfg s (d ++ y) := by
  have h1 : onData cfg s d = runLoop cfg (addData s d) := by
    simp only [onData, hcl, Bool.false_eq_true, if_false]
  have h2 : onData cfg (onData cfg s d) y = runLoop cfg (addData (onData cfg s d) y) := by
    rw [onData, if_neg (by simp [hcl2])]
  have h3 : onData cfg s (d ++ y) = runLoop cfg (addData s (d ++ y)) := by
    simp only [onData, hcl, Bool.false_eq_true, if_false]
  have hassoc : addData s (d ++ y) = addData (addData s d) y := by
    simp [addData, List.append_assoc]
  rw [h2, h3, hassoc, h1]
  rw [h1] at hcl2
  exact (runLoop_addData cfg hmax (mu (addData s d)) (addData s d)
    (le_refl _) hok hcl2 y).symm

/-- A well-behaved partition of the byte stream is equivalent to a
single `on_data` call with all the bytes. -/
theorem feedAll_join (cfg : Cfg) (hmax : ∀ v, maxContentCheck cfg v = false) :
    ∀ (P : List Str) (s : HState), s.closed = false → feedOk cfg s P = true →
      P ≠ [] → feedAll cfg s P = onData cfg s P.join := by
  intro P
  induction P with
  | nil =>
    intro s _ _ hne
    exact absurd rfl hne
  | cons d rest ih =>
    intro s hcl hfo _
    simp only [feedOk] at hfo
    have hparts := (Bool.and_eq_true _ _).mp hfo
    have hparts1 := (Bool.and_eq_true _ _).mp hparts.1
    have hok : runLoopOk cfg (addData s d) = true := hparts1.1
    have hrest : feedOk cfg (onData cfg s d) rest = true := hparts.2
    by_cases hre : rest = []
    · subst hre
      simp [feedAll]
    · have hclosed2 : (onData cfg s d).closed = false := by
        rcases (Bool.or_eq_true _ _).mp hparts1.2 with h | h
        · exact absurd (of_decide_eq_true h) hre
        · simpa using h
      rw [feedAll]
      rw [ih (onData cfg s d) hclosed2 hrest hre]
      rw [onData_comp cfg hmax s d rest.join hcl hok hclosed2]
      simp

/-- A fixed-length body state with too few bytes just buffers them. -/
theorem content_waiting (cfg : Cfg) (s : HState) (x : Str)
    (hst : s.state = PState.content) (hcl : s.closed = false)
    (hlt : pyLen (s.data ++ x) < s.length) :
    onData cfg s x = addData s x := by
  have h3 : onData cfg s x = runLoop cfg (addData s x) := by
    simp only [onData, hcl, Bool.false_eq_true, if_false]
  rw [h3]
  apply runLoop_false
  have hst2 : (addData s x).state = PState.content := hst
  simp only [step, hst2, hst, content, addData]
  rw [if_neg (show ¬ pyLen (s.data ++ x) ≥ s.length from not_le.mpr hlt)]

/-- Delivery at the exact byte: when the buffered plus arriving bytes
reach the declared length exactly, one `http_data` event fires with the
whole body and the engine resets for the next message. -/
theorem content_exact (cfg : Cfg) (s : HState) (x : Str)
    (hst : s.state = PState.content) (hcl : s.closed = false)
    (hex : pyLen (s.data ++ x) = s.length)
    (hgz : dictGet s.httpHeaders (str "Content-Encoding") ≠ some (str "gzip"))
    (hcs : charsetOf s.httpHeaders = none) :
    onData cfg s x = { s with data := ([] : Str), httpHeaders := ([] : Dict), httpContent := ([] : Str), httpStatusCode := none, httpStatusMessage := none, httpMethod := none, httpResource := none, httpQueryString := none, state := PState.status, events := s.events ++ [Event.httpData s.httpHeaders (s.data ++ x)] } := by
  have h3 : onData cfg s x = runLoop cfg (addData s x) := by
    simp only [onData, hcl, Bool.false_eq_true, if_false]
  rw [h3]
  have hst2 : (addData s x).state = PState.content := hst
  have hgecond : pyLen (s.data ++ x) ≥ s.length := le_of_eq hex.symm
  have hto : pySliceTo (s.data ++ x) s.length = s.data ++ x := by
    rw [← hex]; exact pySliceTo_full _
  have hfrom : pySliceFrom (s.data ++ x) s.length = [] := by
    rw [← hex]; exact pySliceFrom_full _
  have hstep : step cfg (addData s x) = (true, { s with data := ([] : Str), httpHeaders := ([] : Dict), httpContent := ([] : Str), httpStatusCode := none, httpStatusMessage := none, httpMethod := none, httpResource := none, httpQueryString := none, state := PState.status, events := s.events ++ [Event.httpData s.httpHeaders (s.data ++ x)] }) := by
    simp only [step, hst2, hst, content, addData]
    rw [if_pos hgecond]
    simp only [onHttpDataFire, setup, hto, hfrom, hcs]
    rw [if_neg hgz]
  rw [runLoop_true cfg _ _ hstep]
  apply runLoop_false
  simp only [step, status, getLine, splitFirst]
  rw [if_neg (by simp only [pyLen, List.length_nil, Nat.cast_zero]; omega)]

/-! ### Round-trip lemmas (C6) -/

/-- The decimal-digit fold used by `pyInt`. -/
theorem foldDigits_lin (l : List Char) :
    ∀ a : Nat, l.foldl (fun acc c => acc * 10 + (c.toNat - 48)) a =
      a * 10 ^ l.length + l.foldl (fun acc c => acc * 10 + (c.toNat - 48)) 0 := by
  induction l with
  | nil => intro a; simp
  | cons c l ih =>
    intro a
    simp only [List.foldl_cons, List.length_cons]
    rw [ih (a * 10 + (c.toNat - 48)), ih (0 * 10 + (c.toNat - 48))]
    ring

/-- `Nat.digitChar` of a digit value decodes back to the value. -/
theorem digitChar_decode (m : Nat) (h : m < 10) :
    (Nat.digitChar m).toNat - 48 = m := by
  interval_cases m <;> rfl

/-- `Nat.digitChar` of a digit value is a decimal digit byte. -/
theorem digitChar_isDigit (m : Nat) (h : m < 10) :
    (Nat.digitChar m).isDigit = true := by
  interval_cases m <;> rfl

/-- Value correctness of the core decimal renderer. -/
theorem toDigitsCore_parse :
    ∀ (f n : Nat) (acc : List Char), n < f →
    (Nat.toDigitsCore 10 f n acc).foldl (fun acc c => acc * 10 + (c.toNat - 48)) 0 =
      n * 10 ^ acc.length +
        acc.foldl (fun acc c => acc * 10 + (c.toNat - 48)) 0 := by
  intro f
  induction f with
  | zero => intro n acc h; omega
  | succ f ih =>
    intro n acc h
    simp only [Nat.toDigitsCore]
    split
    · rename_i hdiv
      have hm : n % 10 = n := by omega
      simp only [List.foldl_cons]
      rw [foldDigits_lin acc (0 * 10 + ((Nat.digitChar (n % 10)).toNat - 48))]
      rw [digitChar_decode (n % 10) (Nat.mod_lt n (by omega))]
      rw [hm]
      ring
    · rename_i hdiv
      have hlt : n / 10 < f := by
        have h1 : n / 10 < n := Nat.div_lt_self (by omega) (by omega)
        omega
      rw [ih (n / 10) (Nat.digitChar (n % 10) :: acc) hlt]
      simp only [List.length_cons, List.foldl_cons]
      rw [foldDigits_lin acc (0 * 10 + ((Nat.digitChar (n % 10)).toNat - 48))]
      rw [digitChar_decode (n % 10) (Nat.mod_lt n (by omega))]
      have hpow : 10 ^ (acc.length + 1) = 10 ^ acc.length * 10 := by ring
      rw [hpow]
      conv_rhs => rw [← Nat.div_add_mod n 10]
      ring

/-- Every byte the core decimal renderer emits is a digit. -/
theorem toDigitsCore_digits :
    ∀ (f n : Nat) (acc : List Char), (∀ c ∈ acc, c.isDigit = true) →
    ∀ c ∈ Nat.toDigitsCore 10 f n acc, c.isDigit = true := by
  intro f
  induction f with
  | zero => intro n acc hacc; exact hacc
  | succ f ih =>
    intro n acc hacc
    simp only [Nat.toDigitsCore]
    split
    · intro c hc
      rcases List.mem_cons.mp hc with hc | hc
      · subst hc; exact digitChar_isDigit _ (Nat.mod_lt n (by omega))
      · exact hacc c hc
    · refine ih (n / 10) _ ?_
      intro c hc
      rcases List.mem_cons.mp hc with hc | hc
      · subst hc; exact digitChar_isDigit _ (Nat.mod_lt n (by omega))
      · exact hacc c hc

/-- The core decimal renderer never returns an empty string. -/
theorem toDigitsCore_ne_nil :
    ∀ (f n : Nat) (acc : List Char), acc ≠ [] ∨ f ≠ 0 →
      Nat.toDigitsCore 10 f n acc ≠ [] := by
  intro f
  induction f with
  | zero =>
    intro n acc h
    rcases h with h | h
    · exact h
    · exact absurd rfl h
  | succ f ih =>
    intro n acc _
    simp only [Nat.toDigitsCore]
    split
    · exact List.cons_ne_nil _ _
    · exact ih (n / 10) _ (Or.inl (List.cons_ne_nil _ _))

/-- A digit byte is not Python whitespace. -/
theorem isDigit_not_pySpace (c : Char) (h : c.isDigit = true) :
    pySpace c = false := by
  by_contra hsp
  rw [Bool.not_eq_false] at hsp
  simp only [pySpace, Bool.or_eq_true, decide_eq_true_eq] at hsp
  rcases hsp with ((((h1 | h1) | h1) | h1) | h1) | h1 <;> subst h1 <;> simp at h

/-- Strings of non-whitespace bytes survive `strip()` unchanged. -/
theorem dropWhile_false {p : Char → Bool} :
    ∀ l : List Char, (∀ c ∈ l, p c = false) → l.dropWhile p = l := by
  intro l h
  induction l with
  | nil => rfl
  | cons c l ih =>
    rw [List.dropWhile_cons, h c (List.mem_cons_self _ _)]
    simp

theorem pyStrip_of_noSpace (s : Str) (h : ∀ c ∈ s, pySpace c = false) :
    pyStrip s = s := by
  simp only [pyStrip]
  rw [dropWhile_false s h]
  rw [dropWhile_false s.reverse (fun c hc => h c (List.mem_reverse.mp hc))]
  exact List.reverse_reverse s

/-- A leading space is removed by `strip()`. -/
theorem pyStrip_cons_space (v : Str) : pyStrip (' ' :: v) = pyStrip v := by
  simp only [pyStrip, List.dropWhile_cons]
  norm_num [pySpace]

/-- `int(str(n)) = n`: the decimal renderer and Python `int` are
mutually inverse on naturals. -/
theorem pyInt_natToStr (n : Nat) : pyInt (natToStr n) = some (n : Int) := by
  have hrepr : natToStr n = Nat.toDigitsCore 10 (n + 1) n [] := rfl
  have hdig : ∀ c ∈ natToStr n, c.isDigit = true := by
    rw [hrepr]
    exact toDigitsCore_digits (n + 1) n [] (by intro c hc; cases hc)
  have hne : natToStr n ≠ [] := by
    rw [hrepr]
    exact toDigitsCore_ne_nil (n + 1) n [] (Or.inr (by omega))
  have hparse : (natToStr n).foldl (fun acc c => acc * 10 + (c.toNat - 48)) 0 = n := by
    rw [hrepr]
    have := toDigitsCore_parse (n + 1) n [] (by omega)
    simpa using this
  have hstrip : pyStrip (natToStr n) = natToStr n :=
    pyStrip_of_noSpace _ (fun c hc => isDigit_not_pySpace c (hdig c hc))
  obtain ⟨c, rest, hc⟩ : ∃ c rest, natToStr n = c :: rest := by
    cases hx : natToStr n with
    | nil => exact absurd hx hne
    | cons c r => exact ⟨c, r, rfl⟩
  have hcd : c.isDigit = true := hdig c (by rw [hc]; exact List.mem_cons_self _ _)
  have hcm : c ≠ '-' := by intro h; rw [h] at hcd; simp at hcd
  have hcp : c ≠ '+' := by intro h; rw [h] at hcd; simp at hcd
  have hall : List.all (c :: rest) Char.isDigit = true := by
    rw [← hc]; exact List.all_eq_true.mpr (fun x hx => hdig x hx)
  have hparse2 : List.foldl (fun acc ch => acc * 10 + (ch.toNat - 48)) 0 (c :: rest) = n := by
    rw [← hc]; exact hparse
  have hstrip2 : pyStrip (c :: rest) = c :: rest := by rw [← hc]; exact hstrip
  rw [hc]
  simp only [pyInt, hstrip2]
  split
  · rename_i heq
    exfalso
    split at heq
    · rename_i r hr
      exact hcm (List.cons.inj hr).1
    · rename_i r hr
      exact hcp (List.cons.inj hr).1
    · cases heq
  · rename_i heq
    split
    · split
      · rename_i r hr
        exact absurd (List.cons.inj hr).1 hcm
      · rename_i r hr
        exact absurd (List.cons.inj hr).1 hcp
      · rw [hparse2]
        simp
    · rename_i hall2
      exfalso
      apply hall2
      split
      · rename_i r hr
        exact absurd (List.cons.inj hr).1 hcm
      · rename_i r hr
        exact absurd (List.cons.inj hr).1 hcp
      · exact hall

theorem dictGet_dictSet_self (d : Dict) (k v : Str) :
    dictGet (dictSet d k v) k = some v := by
  induction d with
  | nil => simp [dictSet, dictGet]
  | cons p rest ih =>
    obtain ⟨k0, v0⟩ := p
    simp only [dictSet]
    split
    · rename_i h
      simp [dictGet, h]
    · rename_i h
      simp [dictGet, h, ih]

theorem dictGet_dictSet_ne (d : Dict) (k k2 v : Str) (h : k ≠ k2) :
    dictGet (dictSet d k v) k2 = dictGet d k2 := by
  induction d with
  | nil => simp [dictSet, dictGet, h]
  | cons p rest ih =>
    obtain ⟨k0, v0⟩ := p
    simp only [dictSet]
    split
    · rename_i h0
      subst h0
      simp [dictGet, h]
    · simp only [dictGet, ih]

/-- Setting an absent key appends it. -/
theorem dictSet_absent (d : Dict) (k v : Str) (h : dictGet d k = none) :
    dictSet d k v = d ++ [(k, v)] := by
  induction d with
  | nil => rfl
  | cons p rest ih =>
    obtain ⟨k0, v0⟩ := p
    simp only [dictGet] at h
    simp only [dictSet]
    split
    · rename_i h0
      rw [if_pos h0] at h
      cases h
    · rename_i h0
      rw [if_neg h0] at h
      simp [ih h]

theorem dictGet_append_of_none (d L : Dict) (k : Str) (h : dictGet d k = none) :
    dictGet (d ++ L) k = dictGet L k := by
  induction d with
  | nil => rfl
  | cons p rest ih =>
    obtain ⟨k0, v0⟩ := p
    simp only [dictGet] at h ⊢
    split at h
    · cases h
    · rename_i h0
      rw [if_neg h0]
      exact ih h

theorem dictGet_append_of_some (d L : Dict) (k v : Str) (h : dictGet d k = some v) :
    dictGet (d ++ L) k = some v := by
  induction d with
  | nil => cases h
  | cons p rest ih =>
    obtain ⟨k0, v0⟩ := p
    simp only [dictGet] at h ⊢
    split at h
    · rename_i h0
      rw [if_pos h0]
      exact h
    · rename_i h0
      rw [if_neg h0]
      exact ih h

/-- An absent key means no entry carries it. -/
theorem dictGet_none_iff (d : Dict) (k : Str) :
    dictGet d k = none ↔ ∀ p ∈ d, p.1 ≠ k := by
  induction d with
  | nil => simp [dictGet]
  | cons p rest ih =>
    obtain ⟨k0, v0⟩ := p
    simp only [dictGet]
    constructor
    · intro h q hq
      split at h
      · cases h
      · rename_i h0
        rcases List.mem_cons.mp hq with hq | hq
        · subst hq
          exact h0
        · exact (ih.mp h) q hq
    · intro h
      rw [if_neg (h (k0, v0) (List.mem_cons_self _ _))]
      exact ih.mpr (fun q hq => h q (List.mem_cons_of_mem _ hq))

theorem dictLen_dictSet_le (d : Dict) (k v : Str) :
    dictLen (dictSet d k v) ≤ dictLen d + 1 := by
  induction d with
  | nil => simp [dictSet, dictLen]
  | cons p rest ih =>
    obtain ⟨k0, v0⟩ := p
    simp only [dictSet]
    split
    · simp [dictLen]
    · simp only [dictLen, List.length_cons] at ih ⊢
      omega

/-- Keys untouched by the lower-casing pass keep their value. -/
theorem dictGet_foldLower_some :
    ∀ (L D : Dict) (k v : Str),
    dictGet D k = some v → (∀ q ∈ L, lowerStr q.1 = k → q.2 = v) →
    dictGet (L.foldl (fun d p => dictSet d (lowerStr p.1) p.2) D) k = some v := by
  intro L
  induction L with
  | nil =>
    intro D k v h _
    exact h
  | cons q L ih =>
    intro D k v h hq
    simp only [List.foldl_cons]
    by_cases hk : lowerStr q.1 = k
    · refine ih _ _ _ ?_ (fun r hr => hq r (List.mem_cons_of_mem _ hr))
      rw [hk, hq q (List.mem_cons_self _ _) hk]
      exact dictGet_dictSet_self D k v
    · refine ih _ _ _ ?_ (fun r hr => hq r (List.mem_cons_of_mem _ hr))
      rw [dictGet_dictSet_ne D _ k q.2 hk]
      exact h

/-- Keys absent before the lower-casing pass and distinct from every
lower-cased name stay absent. -/
theorem dictGet_foldLower_none :
    ∀ (L D : Dict) (k : Str),
    dictGet D k = none → (∀ q ∈ L, lowerStr q.1 ≠ k) →
    dictGet (L.foldl (fun d p => dictSet d (lowerStr p.1) p.2) D) k = none := by
  intro L
  induction L with
  | nil =>
    intro D k h _
    exact h
  | cons q L ih =>
    intro D k h hq
    simp only [List.foldl_cons]
    refine ih _ _ ?_ (fun r hr => hq r (List.mem_cons_of_mem _ hr))
    rw [dictGet_dictSet_ne D _ k q.2 (hq q (List.mem_cons_self _ _))]
    exact h

/-- `__line` on a buffer holding one clean CRLF-terminated line. -/
theorem getLine_clean (cfg : Cfg) (s : HState) (A T : Str)
    (hdata : s.data = A ++ '\r' :: '\n' :: T)
    (hA : '\n' ∉ A) (hlen : A.length ≤ cfg.httpMaxLineLength) :
    getLine cfg s = (.line A, { s with data := T }) := by
  have hsp : splitFirst '\n' s.data = some (A ++ ['\r'], T) := by
    rw [hdata]
    have hre : A ++ '\r' :: '\n' :: T = (A ++ ['\r']) ++ '\n' :: T := by simp
    rw [hre]
    apply splitFirst_of_append
    intro hmem
    rcases List.mem_append.mp hmem with h | h
    · exact hA h
    · simp at h
  simp only [getLine, hsp]
  rw [if_neg (by simp)]
  rw [List.getLast?_concat, if_pos rfl, List.dropLast_concat]
  rw [if_neg (by omega)]

/-- The serialized header block plus blank line and body, re-expressed
line by line. -/
theorem headerBlock_hdrLines (b : Str) :
    ∀ (L : Dict), L ≠ [] →
    headerBlock L ++ '\r' :: '\n' :: '\r' :: '\n' :: b = hdrLines L b := by
  intro L
  induction L with
  | nil =>
    intro h
    exact absurd rfl h
  | cons p rest ih =>
    intro _
    cases rest with
    | nil =>
      simp [headerBlock, pyJoin, hdrLines, str, List.append_assoc]
    | cons q rest2 =>
      simp only [headerBlock, List.map_cons, pyJoin, hdrLines] at ih ⊢
      rw [← ih (by simp)]
      simp [str, List.append_assoc]

/-- Parsing walks through clean serialized header lines one at a time,
accumulating the stripped bindings. -/
theorem header_walk (cfg : Cfg) (b : Str) :
    ∀ (L : Dict) (s : HState),
    s.state = PState.header →
    (∀ p ∈ L, ('\n' ∉ p.1 ∧ ':' ∉ p.1 ∧ pyStrip p.1 = p.1) ∧
              ('\n' ∉ p.2 ∧ pyStrip p.2 = p.2) ∧
              p.1.length + 2 + p.2.length ≤ cfg.httpMaxLineLength) →
    dictLen s.httpHeaders + L.length ≤ cfg.httpMaxHeaderCount →
    s.data = hdrLines L b →
    runLoop cfg s = runLoop cfg
      { s with data := '\r' :: '\n' :: b,
               httpHeaders := dictSetList s.httpHeaders L } := by
  intro L
  induction L with
  | nil =>
    intro s hst hclean hcount hdata
    have hd2 : s.data = '\r' :: '\n' :: b := by rw [hdata]; rfl
    rw [← hd2]
    rfl
  | cons p L ih =>
    intro s hst hclean hcount hdata
    obtain ⟨⟨hn1, hn3, hn4⟩, ⟨hv1, hv3⟩, hlen⟩ := hclean p (List.mem_cons_self _ _)
    have hget : getLine cfg s =
        (.line (p.1 ++ str ": " ++ p.2), { s with data := hdrLines L b }) := by
      apply getLine_clean cfg s _ _ ?_ ?_ ?_
      · rw [hdata]
        simp only [hdrLines]
      · intro hmem
        rcases List.mem_append.mp hmem with h | h
        · rcases List.mem_append.mp h with h2 | h2
          · exact hn1 h2
          · simp [str] at h2
        · exact hv1 h
      · have hlapp : (p.1 ++ str ": " ++ p.2).length = p.1.length + 2 + p.2.length := by
          simp [str]
          omega
        omega
    have hcount1 : ¬ dictLen s.httpHeaders = cfg.httpMaxHeaderCount := by
      simp only [List.length_cons] at hcount
      omega
    have hsplit : splitFirst ':' (p.1 ++ str ": " ++ p.2) = some (p.1, ' ' :: p.2) := by
      have hform : p.1 ++ str ": " ++ p.2 = p.1 ++ ':' :: (' ' :: p.2) := by
        simp [str]
      rw [hform]
      exact splitFirst_of_append hn3
    cases hL1 : p.1 ++ str ": " ++ p.2 with
    | nil =>
      exfalso
      have hlen1 := congrArg List.length hL1
      simp [str] at hlen1
    | cons c l2 =>
      rw [hL1] at hget
      have hstep : step cfg s = (true,
          { s with data := hdrLines L b,
                   httpHeaders := dictSet s.httpHeaders p.1 p.2 }) := by
        simp only [step, hst, header, hget]
        rw [if_neg hcount1]
        rw [← hL1]
        simp only [hsplit, hn4, pyStrip_cons_space, hv3]
      rw [runLoop_true cfg s _ hstep]
      have hcount2 : dictLen (dictSet s.httpHeaders p.1 p.2) + L.length ≤
          cfg.httpMaxHeaderCount := by
        have hdle := dictLen_dictSet_le s.httpHeaders p.1 p.2
        simp only [List.length_cons] at hcount
        omega
      rw [ih { s with data := hdrLines L b, httpHeaders := dictSet s.httpHeaders p.1 p.2 } hst (fun q hq => hclean q (List.mem_cons_of_mem _ hq)) hcount2 rfl]
      rfl

/-- `Char.ofNat` of a basic-plane code point decodes back to it. -/
theorem toNat_ofNat_of_valid (n : Nat) (h : n < 55296) :
    (Char.ofNat n).toNat = n := by
  rw [Char.ofNat, dif_pos (Or.inl h)]
  rfl

/-- The code point of `Char.toLower`. -/
theorem toLower_toNat (c : Char) :
    (Char.toLower c).toNat =
      if c.toNat ≥ 65 ∧ c.toNat ≤ 90 then c.toNat + 32 else c.toNat := by
  show (if c.toNat ≥ 65 ∧ c.toNat ≤ 90 then Char.ofNat (c.toNat + 32) else c).toNat = _
  split
  · rename_i h
    exact toNat_ofNat_of_valid (c.toNat + 32) (by omega)
  · rfl

/-- Lower-casing is idempotent. -/
theorem toLower_idem (c : Char) :
    Char.toLower (Char.toLower c) = Char.toLower c := by
  show (if (Char.toLower c).toNat ≥ 65 ∧ (Char.toLower c).toNat ≤ 90 then
      Char.ofNat ((Char.toLower c).toNat + 32) else Char.toLower c) = Char.toLower c
  rw [if_neg ?_]
  rw [toLower_toNat]
  split
  · omega
  · rename_i h
    omega

theorem lowerStr_idem (l : Str) : lowerStr (lowerStr l) = lowerStr l := by
  simp only [lowerStr, List.map_map]
  exact List.map_congr_left (fun c _ => toLower_idem c)

/-- A lower-cased string never starts with an upper-case letter. -/
theorem lowerStr_ne_upper_head (l : Str) (u : Char) (rest : Str)
    (h65 : 65 ≤ u.toNat) (h90 : u.toNat ≤ 90) : lowerStr l ≠ u :: rest := by
  cases l with
  | nil => simp [lowerStr]
  | cons c l2 =>
    simp only [lowerStr, List.map_cons]
    intro h
    have hc : Char.toLower c = u := (List.cons.inj h).1
    have hn := congrArg Char.toNat hc
    rw [toLower_toNat] at hn
    split at hn
    · omega
    · rename_i hr
      omega

/-- In a dict with pairwise distinct keys, every entry is found. -/
theorem dictGet_mem_of_pairwise :
    ∀ (d : Dict), List.Pairwise (fun p q => p.1 ≠ q.1) d →
    ∀ p ∈ d, dictGet d p.1 = some p.2 := by
  intro d
  induction d with
  | nil =>
    intro _ p hp
    cases hp
  | cons q d ih =>
    intro hpw p hp
    have hpw2 := List.pairwise_cons.mp hpw
    rcases List.mem_cons.mp hp with hp | hp
    · subst hp
      simp [dictGet]
    · simp only [dictGet]
      rw [if_neg (hpw2.1 p hp)]
      exact ih hpw2.2 p hp

/-- Inserting fresh pairwise-distinct bindings appends them in order. -/
theorem dictSetList_fresh :
    ∀ (L d : Dict), (∀ p ∈ L, dictGet d p.1 = none) →
    List.Pairwise (fun p q => p.1 ≠ q.1) L →
    dictSetList d L = d ++ L := by
  intro L
  induction L with
  | nil =>
    intro d _ _
    simp [dictSetList]
  | cons p L ih =>
    intro d hfresh hpw
    have hpw2 := List.pairwise_cons.mp hpw
    show dictSetList (dictSet d p.1 p.2) L = d ++ p :: L
    rw [dictSet_absent d p.1 p.2 (hfresh p (List.mem_cons_self _ _))]
    rw [ih (d ++ [(p.1, p.2)]) ?_ hpw2.2]
    · simp
    · intro q hq
      rw [dictGet_append_of_none d _ q.1 (hfresh q (List.mem_cons_of_mem _ hq))]
      simp [dictGet]
      exact fun h => (hpw2.1 q hq) h

/-- The service loop preserves the scheduler invariant, stated over its
explicit arguments. -/
theorem serviceGo_WF (now : Int) :
    ∀ (heap : List Nat) (tm : List (Nat × TEntry)) (fired : List (Nat × Int)),
    heap.Nodup →
    (∀ i e, tGet tm i = some e →
      ((e.isInHeap = true ↔ i ∈ heap) ∧ (e.running = true → e.isInHeap = true))) →
    (∀ i, i ∈ heap → (tGet tm i).isSome = true) →
    (serviceGo now tm fired heap).2.2.Nodup ∧
    (∀ i e, tGet (serviceGo now tm fired heap).1 i = some e →
      ((e.isInHeap = true ↔ i ∈ (serviceGo now tm fired heap).2.2) ∧
        (e.running = true → e.isInHeap = true))) ∧
    (∀ i, i ∈ (serviceGo now tm fired heap).2.2 →
      (tGet (serviceGo now tm fired heap).1 i).isSome = true) := by
  intro heap
  induction heap with
  | nil =>
    intro tm fired hnd hflag hres
    exact ⟨hnd, hflag, hres⟩
  | cons h rest ih =>
    intro tm fired hnd hflag hres
    have hh : h ∉ rest := (List.nodup_cons.mp hnd).1
    have hndr : rest.Nodup := (List.nodup_cons.mp hnd).2
    simp only [serviceGo]
    cases hget : tGet tm h with
    | none => exact ⟨hnd, hflag, hres⟩
    | some e =>
      by_cases hexp : e.expiration < now
      · simp only [if_pos hexp]
        have hstep : ∀ (enew : TEntry), enew.isInHeap = false → enew.running = false →
            ∀ fired1,
            (serviceGo now (tSet tm h enew) fired1 rest).2.2.Nodup ∧
            (∀ i e2, tGet (serviceGo now (tSet tm h enew) fired1 rest).1 i = some e2 →
              ((e2.isInHeap = true ↔ i ∈ (serviceGo now (tSet tm h enew) fired1 rest).2.2) ∧
                (e2.running = true → e2.isInHeap = true))) ∧
            (∀ i, i ∈ (serviceGo now (tSet tm h enew) fired1 rest).2.2 →
              (tGet (serviceGo now (tSet tm h enew) fired1 rest).1 i).isSome = true) := by
          intro enew hih hrn fired1
          apply ih _ fired1 hndr
          · intro i e2 hi
            by_cases hih2 : i = h
            · subst hih2
              rw [tGet_tSet_same] at hi
              cases hi
              constructor
              · rw [hih]
                constructor
                · intro hfalse; cases hfalse
                · intro hm; exact absurd hm hh
              · intro hr; rw [hrn] at hr; cases hr
            · rw [tGet_tSet_other _ _ _ _ (fun h2 => hih2 h2.symm)] at hi
              have h2 := hflag i e2 hi
              refine ⟨?_, h2.2⟩
              rw [h2.1]
              simp only [List.mem_cons]
              constructor
              · rintro (h3 | h3)
                · exact absurd h3 hih2
                · exact h3
              · exact fun h3 => Or.inr h3
          · intro i hi
            by_cases hih2 : i = h
            · subst hih2
              rw [tGet_tSet_same]
              rfl
            · rw [tGet_tSet_other _ _ _ _ (fun h2 => hih2 h2.symm)]
              exact hres i (List.mem_cons_of_mem _ hi)
        by_cases hrun : e.running = true
        · simp only [hrun, tSet_tSet, if_true]
          exact hstep { e with isInHeap := false, running := false } rfl rfl
            (fired ++ [(e.action, e.expiration)])
        · simp only [hrun, Bool.false_eq_true, if_false]
          exact hstep { e with isInHeap := false, running := false } rfl rfl fired
      · simp only [if_neg hexp]
        exact ⟨hnd, hflag, hres⟩

/-- `service` preserves well-formedness. -/
theorem serviceOp_WF (now : Int) (ts : TimersState)
    (hWF : heapWF ts) : heapWF (serviceOp now ts) := by
  obtain ⟨hnd, hflag, hres⟩ := hWF
  exact serviceGo_WF now ts.heap ts.timers ts.fired hnd hflag hres

/-- Every scheduler operation preserves well-formedness. -/
theorem tStep_WF (ts : TimersState) (op : TOp) (hWF : heapWF ts) :
    heapWF (tStep ts op) := by
  cases op with
  | add i a d => exact addOp_WF ts i a _ hWF
  | addBackoff i a ini m mult => exact addOp_WF ts i a _ hWF
  | addHourly i a => exact addOp_WF ts i a _ hWF
  | start i now => exact startOp_WF ts i now hWF
  | reStart i now => exact reStartOp_WF ts i now hWF
  | cancel i => exact cancelOp_WF ts i hWF
  | expire i now => exact expireOp_WF ts i now hWF
  | service now => exact serviceOp_WF now ts hWF

/-- Every state reachable from the empty scheduler is well-formed. -/
theorem tRun_WF (ops : List TOp) : heapWF (tRun ops) := by
  suffices h : ∀ ts, heapWF ts → heapWF (ops.foldl tStep ts) by
    apply h
    refine ⟨List.nodup_nil, ?_, ?_⟩
    · intro i e hi
      simp [tGet] at hi
    · intro i hi
      cases hi
  induction ops with
  | nil => intro ts hWF; exact hWF
  | cons op rest ih =>
    intro ts hWF
    exact ih _ (tStep_WF ts op hWF)

/-- Newly fired entries come only from timers that were running in the
heap, carrying their action and their expiration at pop time. -/
theorem serviceGo_fired_from_running (now : Int) :
    ∀ (heap : List Nat) (tm : List (Nat × TEntry)) (fired : List (Nat × Int)),
    ∃ fresh, (serviceGo now tm fired heap).2.1 = fired ++ fresh ∧
      ∀ p ∈ fresh, ∃ i e, i ∈ heap ∧ tGet tm i = some e ∧ e.running = true ∧
        p = (e.action, e.expiration) := by
  intro heap
  induction heap with
  | nil =>
    intro tm fired
    exact ⟨[], by simp [serviceGo], by simp⟩
  | cons h rest ih =>
    intro tm fired
    simp only [serviceGo]
    cases hget : tGet tm h with
    | none => exact ⟨[], by simp, by simp⟩
    | some e =>
      by_cases hexp : e.expiration < now
      · simp only [if_pos hexp]
        by_cases hrun : e.running = true
        · simp only [hrun, tSet_tSet, if_true]
          obtain ⟨fresh, hfr, hw⟩ :=
            ih (tSet tm h { e with isInHeap := false, running := false })
              (fired ++ [(e.action, e.expiration)])
          refine ⟨(e.action, e.expiration) :: fresh, ?_, ?_⟩
          · rw [hfr]
            simp
          · intro p hp
            rcases List.mem_cons.mp hp with hp | hp
            · exact ⟨h, e, List.mem_cons_self _ _, hget, hrun, hp⟩
            · obtain ⟨i, e2, hi, hge, hre, hpe⟩ := hw p hp
              by_cases hih : i = h
              · subst hih
                rw [tGet_tSet_same] at hge
                cases hge
                cases hre
              · rw [tGet_tSet_other _ _ _ _ (fun h2 => hih h2.symm)] at hge
                exact ⟨i, e2, List.mem_cons_of_mem _ hi, hge, hre, hpe⟩
        · simp only [hrun, Bool.false_eq_true, if_false]
          obtain ⟨fresh, hfr, hw⟩ :=
            ih (tSet tm h { e with isInHeap := false, running := false }) fired
          refine ⟨fresh, hfr, ?_⟩
          intro p hp
          obtain ⟨i, e2, hi, hge, hre, hpe⟩ := hw p hp
          by_cases hih : i = h
          · subst hih
            rw [tGet_tSet_same] at hge
            cases hge
            cases hre
          · rw [tGet_tSet_other _ _ _ _ (fun h2 => hih h2.symm)] at hge
            exact ⟨i, e2, List.mem_cons_of_mem _ hi, hge, hre, hpe⟩
      · simp only [if_neg hexp]
        exact ⟨[], by simp, by simp⟩

/-- **C4** (amended) — Across every operation sequence a *running*
timer is always present in the scheduling structure; but `cancel()`
does not remove a timer from the structure — it only marks it idle with
expiration `0`, and the entry leaves the heap at a later `service()`
pop, which fires only actions of timers that were still running. -/
theorem claim_c4_running_timer_in_heap :
    (∀ (ops : List TOp) (i : Nat) (e : TEntry),
      tGet (tRun ops).timers i = some e → e.running = true →
        i ∈ (tRun ops).heap) ∧
    (∀ (ts : TimersState) (i : Nat), (cancelOp ts i).heap = ts.heap ∧
      ∀ e, tGet ts.timers i = some e → e.running = true →
        ∃ e1, tGet (cancelOp ts i).timers i = some e1 ∧
          e1.running = false ∧ e1.expiration = 0) ∧
    (∀ (now : Int) (ts : TimersState), ∃ fresh,
      (serviceOp now ts).fired = ts.fired ++ fresh ∧
      ∀ p ∈ fresh, ∃ i e, i ∈ ts.heap ∧ tGet ts.timers i = some e ∧
        e.running = true ∧ p = (e.action, e.expiration)) := by
  refine ⟨?_, ?_, ?_⟩
  · intro ops i e hget hrun
    have hWF := tRun_WF ops
    have h2 := hWF.2.1 i e hget
    exact h2.1.mp (h2.2 hrun)
  · intro ts i
    constructor
    · simp only [cancelOp]
      cases hget : tGet ts.timers i with
      | none => rfl
      | some e =>
        by_cases hrun : e.running = true
        · simp [hrun]
        · simp [hrun]
    · intro e hget hrun
      simp only [cancelOp, hget, hrun, if_true]
      exact ⟨_, tGet_tSet_same _ _ _, rfl, rfl⟩
  · intro now ts
    exact serviceGo_fired_from_running now ts.heap ts.timers ts.fired

/-- Witness for C4 (amended): a started timer sits in the heap. -/
theorem claim_c4_running_timer_in_heap_witness :
    0 ∈ (tRun [TOp.add 0 5 1000, TOp.start 0 0]).heap :=
  claim_c4_running_timer_in_heap.1 [TOp.add 0 5 1000, TOp.start 0 0] 0 _ rfl rfl

/-- **C4 counterexample** — the claim as stated is false: `cancel()` on
a running timer does *not* remove it from the scheduling structure.
After add/start/cancel the timer is idle yet still in the heap. -/
theorem claim_c4_counterexample :
    runningIn (tRun [TOp.add 0 5 1000, TOp.start 0 0, TOp.cancel 0]).timers 0 = false ∧
      0 ∈ (tRun [TOp.add 0 5 1000, TOp.start 0 0, TOp.cancel 0]).heap := by
  decide

/-- Unfolding `runningExpsL` over a cons. -/
theorem runningExpsL_cons (tm : List (Nat × TEntry)) (k : Nat) (rest : List Nat) :
    runningExpsL tm (k :: rest) =
      if runningIn tm k then expOf tm k :: runningExpsL tm rest
      else runningExpsL tm rest := by
  simp only [runningExpsL, List.filter]
  cases hr : runningIn tm k <;> simp [hr]

/-- Updating a timer that is not on the list leaves the running
expirations unchanged. -/
theorem runningExpsL_tSet_not_mem (tm : List (Nat × TEntry)) (h : Nat)
    (e : TEntry) (heap : List Nat) (hh : h ∉ heap) :
    runningExpsL (tSet tm h e) heap = runningExpsL tm heap := by
  induction heap with
  | nil => rfl
  | cons k rest ih =>
    have hkh : k ≠ h := fun hk => hh (hk ▸ List.mem_cons_self _ _)
    have hr : h ∉ rest := fun hm => hh (List.mem_cons_of_mem _ hm)
    rw [runningExpsL_cons, runningExpsL_cons, ih hr]
    have hrg : tGet (tSet tm h e) k = tGet tm k :=
      tGet_tSet_other tm h k e (fun h2 => hkh h2.symm)
    rw [show runningIn (tSet tm h e) k = runningIn tm k from by
      simp [runningIn, hrg]]
    rw [show expOf (tSet tm h e) k = expOf tm k from by simp [expOf, hrg]]

/-- Along a list whose running expirations are sorted, the service loop
fires in non-decreasing expiration order, and every fired expiration is
one of the running ones. -/
theorem serviceGo_fired_sorted (now : Int) :
    ∀ (heap : List Nat) (tm : List (Nat × TEntry)) (fired : List (Nat × Int)),
    heap.Nodup → List.Pairwise (· ≤ ·) (runningExpsL tm heap) →
    ∃ fresh, (serviceGo now tm fired heap).2.1 = fired ++ fresh ∧
      List.Pairwise (· ≤ ·) (fresh.map Prod.snd) ∧
      ∀ x ∈ fresh.map Prod.snd, x ∈ runningExpsL tm heap := by
  intro heap
  induction heap with
  | nil =>
    intro tm fired hnd hpw
    exact ⟨[], by simp [serviceGo], by simp, by simp⟩
  | cons h rest ih =>
    intro tm fired hnd hpw
    have hh : h ∉ rest := (List.nodup_cons.mp hnd).1
    have hndr : rest.Nodup := (List.nodup_cons.mp hnd).2
    simp only [serviceGo]
    cases hget : tGet tm h with
    | none => exact ⟨[], by simp, by simp, by simp⟩
    | some e =>
      by_cases hexp : e.expiration < now
      · simp only [if_pos hexp]
        by_cases hrun : e.running = true
        · simp only [hrun, tSet_tSet, if_true]
          have hrin : runningIn tm h = true := by simp [runningIn, hget, hrun]
          have hexpo : expOf tm h = e.expiration := by simp [expOf, hget]
          rw [runningExpsL_cons, hrin, if_pos rfl, hexpo, List.pairwise_cons] at hpw
          have hrw := runningExpsL_tSet_not_mem tm h
            { e with isInHeap := false, running := false } rest hh
          obtain ⟨fresh, hfr, hpw2, hmem⟩ :=
            ih (tSet tm h { e with isInHeap := false, running := false })
              (fired ++ [(e.action, e.expiration)]) hndr (hrw ▸ hpw.2)
          refine ⟨(e.action, e.expiration) :: fresh, ?_, ?_, ?_⟩
          · rw [hfr]
            simp
          · rw [List.map_cons, List.pairwise_cons]
            refine ⟨?_, hpw2⟩
            intro x hx
            have := hmem x hx
            rw [hrw] at this
            exact hpw.1 x this
          · intro x hx
            rw [runningExpsL_cons, hrin, if_pos rfl, hexpo]
            rcases List.mem_cons.mp hx with hx | hx
            · exact hx ▸ List.mem_cons_self _ _
            · have := hmem x hx
              rw [hrw] at this
              exact List.mem_cons_of_mem _ this
        · simp only [hrun, Bool.false_eq_true, if_false]
          have hrin : runningIn tm h = false := by
            simp only [runningIn, hget, Option.map_some, Option.getD_some]
            exact Bool.not_eq_true _ ▸ hrun
          rw [runningExpsL_cons, hrin] at hpw
          simp only [Bool.false_eq_true, if_false] at hpw
          have hrw := runningExpsL_tSet_not_mem tm h
            { e with isInHeap := false, running := false } rest hh
          obtain ⟨fresh, hfr, hpw2, hmem⟩ :=
            ih (tSet tm h { e with isInHeap := false, running := false })
              fired hndr (hrw ▸ hpw)
          refine ⟨fresh, hfr, hpw2, ?_⟩
          intro x hx
          have := hmem x hx
          rw [hrw] at this
          rw [runningExpsL_cons, hrin]
          simpa using this
      · simp only [if_neg hexp]
        exact ⟨[], by simp, by simp, by simp⟩

/-- The `fresh` suffix of the fired log is exactly `newlyFired`. -/
theorem newlyFired_eq (now : Int) (ts : TimersState) (fresh : List (Nat × Int))
    (h : (serviceOp now ts).fired = ts.fired ++ fresh) :
    newlyFired now ts = fresh := by
  rw [newlyFired, h, List.drop_left]

/-- **C5** (amended) — When the running timers' expirations appear in
sorted order along the scheduling list (as they do when deadlines are
never moved backwards under an earlier one by `expire()`), one
`service()` call fires actions in non-decreasing expiration order; a
fired timer with a strictly smaller expiration fires strictly earlier;
and of two idle fixed-duration timers with the same duration, the one
started at the earlier instant gets the strictly smaller deadline. -/
theorem claim_c5_service_fire_order :
    (∀ (now : Int) (ts : TimersState), ts.heap.Nodup →
      List.Pairwise (· ≤ ·) (runningExps ts) →
      List.Pairwise (· ≤ ·) ((newlyFired now ts).map Prod.snd)) ∧
    (∀ (now : Int) (ts : TimersState), ts.heap.Nodup →
      List.Pairwise (· ≤ ·) (runningExps ts) →
      ∀ (i j : Nat) (hi : i < (newlyFired now ts).length)
        (hj : j < (newlyFired now ts).length),
        ((newlyFired now ts).get ⟨i, hi⟩).2 < ((newlyFired now ts).get ⟨j, hj⟩).2 →
        i < j) ∧
    (∀ (ts1 ts2 : TimersState) (i1 i2 : Nat) (d : Nat) (t1 t2 : Int)
      (e1 e2 : TEntry),
      tGet ts1.timers i1 = some e1 → e1.running = false → e1.policy = .fixed d →
      tGet ts2.timers i2 = some e2 → e2.running = false → e2.policy = .fixed d →
      t1 < t2 →
      ∃ f1 f2, tGet (startOp ts1 i1 t1).timers i1 = some f1 ∧
        tGet (startOp ts2 i2 t2).timers i2 = some f2 ∧
        f1.expiration < f2.expiration) := by
  have main : ∀ (now : Int) (ts : TimersState), ts.heap.Nodup →
      List.Pairwise (· ≤ ·) (runningExps ts) →
      List.Pairwise (· ≤ ·) ((newlyFired now ts).map Prod.snd) := by
    intro now ts hnd hpw
    obtain ⟨fresh, hfr, hpw2, _⟩ :=
      serviceGo_fired_sorted now ts.heap ts.timers ts.fired hnd hpw
    rw [newlyFired_eq now ts fresh hfr]
    exact hpw2
  refine ⟨main, ?_, ?_⟩
  · intro now ts hnd hpw i j hi hj hlt
    have hpw2 := main now ts hnd hpw
    by_contra hij
    have hji : j ≤ i := Nat.le_of_not_lt hij
    rcases Nat.lt_or_ge j i with hj2 | hj2
    · have := List.pairwise_iff_get.mp hpw2
        ⟨j, by simpa using hj⟩ ⟨i, by simpa using hi⟩ hj2
      simp only [List.get_map] at this
      omega
    · have : i = j := by omega
      subst this
      exact absurd hlt (lt_irrefl _)
  · intro ts1 ts2 i1 i2 d t1 t2 e1 e2 hg1 hr1 hp1 hg2 hr2 hp2 hlt
    simp only [startOp, hg1, hg2, hr1, hr2, hp1, hp2, Bool.false_eq_true,
      if_false, getDuration]
    cases hih1 : e1.isInHeap <;> cases hih2 : e2.isInHeap <;>
      refine ⟨_, _, tGet_tSet_same _ _ _, tGet_tSet_same _ _ _, by
        simp only []
        omega⟩

/-- Witness for C5 (amended): three started fixed timers fire in
expiration order, and starting the same duration later yields the later
deadline. -/
theorem claim_c5_service_fire_order_witness :
    (tRun [TOp.add 1 101 5000, TOp.add 2 102 3000, TOp.add 3 103 9000,
      TOp.start 1 0, TOp.start 2 0, TOp.start 3 0]).heap.Nodup ∧
    List.Pairwise (· ≤ ·) (runningExps (tRun [TOp.add 1 101 5000,
      TOp.add 2 102 3000, TOp.add 3 103 9000,
      TOp.start 1 0, TOp.start 2 0, TOp.start 3 0])) ∧
    List.Pairwise (· ≤ ·) ((newlyFired 10000 (tRun [TOp.add 1 101 5000,
      TOp.add 2 102 3000, TOp.add 3 103 9000,
      TOp.start 1 0, TOp.start 2 0, TOp.start 3 0])).map Prod.snd) :=
  ⟨by decide, by decide,
    claim_c5_service_fire_order.1 10000 _ (by decide) (by decide)⟩

/-! ### HTTP engine lemmas -/

/-- **C1** (amended) — Chunk decoding: the example chunk stream after a
`Transfer-Encoding: chunked` header block delivers one complete message
with body exactly `abcde123` and resets the engine; and whenever the
line right after a chunk's data is non-empty (and within the maximum
line length, whose own overflow diagnostics take priority), the parser
fails fatally with `Extra data at end of chunk`: the error callback
fires and the connection closes. -/
theorem claim_c1_chunk_decode :
    ((feedAll {} {} [str "HTTP/1.1 200 OK\r\nTransfer-Encoding: chunked\r\n\r\n",
        str "5\r\nabcde\r\n3\r\n123\r\n0\r\n\r\n"]).events
      = [.httpData [(str "Transfer-Encoding", str "chunked"),
          (str "transfer-encoding", str "chunked")] (str "abcde123")] ∧
      (feedAll {} {} [str "HTTP/1.1 200 OK\r\nTransfer-Encoding: chunked\r\n\r\n",
        str "5\r\nabcde\r\n3\r\n123\r\n0\r\n\r\n"]).state = .status ∧
      (feedAll {} {} [str "HTTP/1.1 200 OK\r\nTransfer-Encoding: chunked\r\n\r\n",
        str "5\r\nabcde\r\n3\r\n123\r\n0\r\n\r\n"]).closed = false) ∧
    (∀ (cfg : Cfg) (s : HState) (l : Str) (s1 : HState),
      s.state = .chunkedContentEnd → s.closed = false → s.identityOnClose = false →
      getLine cfg s = (.line l, s1) → l ≠ [] →
      step cfg s = (false, fatal cfg s1 (str "Extra data at end of chunk")) ∧
      (step cfg s).2.closed = true ∧
      (step cfg s).2.error = some (str "Extra data at end of chunk") ∧
      (step cfg s).2.events = s.events ++ [.httpError (str "Extra data at end of chunk")]) := by
  constructor
  · refine ⟨by decide, by decide, by decide⟩
  · intro cfg s l s1 hstate hclosed hioc hline hl
    obtain ⟨hs1, _⟩ := getLine_line cfg s l s1 hline
    have hcl : s1.closed = false := by rw [hs1]; exact hclosed
    have hio : s1.identityOnClose = false := by rw [hs1]; exact hioc
    have hev : s1.events = s.events := by rw [hs1]
    have hstep : step cfg s = (false, fatal cfg s1 (str "Extra data at end of chunk")) := by
      simp only [step, hstate, chunkedContentEnd, hline, hl, if_false]
    refine ⟨hstep, ?_, ?_, ?_⟩ <;>
      rw [hstep] <;>
      simp [fatal, closeConn, hcl, hio, hev]

/-- Witness for C1: a concrete junk line `XY` after chunk data triggers
the `Extra data at end of chunk` error with the connection closed. -/
theorem claim_c1_chunk_decode_witness :
    (step {} { data := str "XY\r\nrest", state := .chunkedContentEnd }).2.closed = true ∧
      (step {} { data := str "XY\r\nrest", state := .chunkedContentEnd }).2.error
        = some (str "Extra data at end of chunk") :=
  ⟨(claim_c1_chunk_decode.2 {} { data := str "XY\r\nrest", state := .chunkedContentEnd }
      (str "XY") { data := str "rest", state := .chunkedContentEnd }
      rfl rfl rfl (by decide) (by decide)).2.1,
   (claim_c1_chunk_decode.2 {} { data := str "XY\r\nrest", state := .chunkedContentEnd }
      (str "XY") { data := str "rest", state := .chunkedContentEnd }
      rfl rfl rfl (by decide) (by decide)).2.2.1⟩

/-- **C1 counterexample** — the claim as stated is false: a non-empty
line after chunk data that exceeds the maximum line length is a fatal
error, but its diagnostic is the line-length one, not
`Extra data at end of chunk`. -/
theorem claim_c1_counterexample :
    (splitFirst '\n' (str "abcdef\nXYZ") = some (str "abcdef", str "XYZ")) ∧
    (str "abcdef" ≠ []) ∧
    ((step { httpMaxLineLength := 3 }
        { data := str "abcdef\nXYZ", state := .chunkedContentEnd }).2.closed = true) ∧
    ((step { httpMaxLineLength := 3 }
        { data := str "abcdef\nXYZ", state := .chunkedContentEnd }).2.error
      = some (str "too much data without a line termination (b)")) ∧
    ((step { httpMaxLineLength := 3 }
        { data := str "abcdef\nXYZ", state := .chunkedContentEnd }).2.error
      ≠ some (str "Extra data at end of chunk")) := by
  refine ⟨by decide, by decide, by decide, by decide, by decide⟩

/-- C2 (amended) — fixed-length exactness and partition independence:
with the maximum-content check disabled, (1) any partition of the byte
stream whose `on_data` calls keep the declared lengths non-negative and
close the connection at most at the very end behaves exactly like a
single all-at-once call; (2) a fixed-length body state short of its
declared `Content-Length` only buffers arriving bytes; (3) the moment
the total buffered body bytes reach the declared length exactly, one
`http_data` event fires carrying the whole body and the engine resets
for the next message.  (The original unconditional partition-independence
claim is false: see the counterexample, a request whose header line sits
exactly at the maximum line length parses all-at-once but dies with the
`(a)` line-length diagnostic byte-at-a-time.) -/
theorem claim_c2_fixed_length_exact (cfg : Cfg)
    (hmax : ∀ v, maxContentCheck cfg v = false) :
    (∀ (P : List Str) (s : HState), s.closed = false → feedOk cfg s P = true →
        P ≠ [] → feedAll cfg s P = onData cfg s P.join) ∧
    (∀ (s : HState) (x : Str), s.state = PState.content → s.closed = false →
        pyLen (s.data ++ x) < s.length → onData cfg s x = addData s x) ∧
    (∀ (s : HState) (x : Str), s.state = PState.content → s.closed = false →
        pyLen (s.data ++ x) = s.length →
        dictGet s.httpHeaders (str "Content-Encoding") ≠ some (str "gzip") →
        charsetOf s.httpHeaders = none →
        onData cfg s x = { s with data := ([] : Str), httpHeaders := ([] : Dict), httpContent := ([] : Str), httpStatusCode := none, httpStatusMessage := none, httpMethod := none, httpResource := none, httpQueryString := none, state := PState.status, events := s.events ++ [Event.httpData s.httpHeaders (s.data ++ x)] }) :=
  ⟨fun P s h1 h2 h3 => feedAll_join cfg hmax P s h1 h2 h3,
   fun s x h1 h2 h3 => content_waiting cfg s x h1 h2 h3,
   fun s x h1 h2 h3 h4 h5 => content_exact cfg s x h1 h2 h3 h4 h5⟩

/-- C2 counterexample — the original claim is false: the same bytes
parse cleanly when delivered all at once but abort with the
`too much data without a line termination (a)` error when delivered one
byte at a time, because the unterminated-buffer length check fires
before the terminator of a maximum-length header line arrives. -/
theorem claim_c2_counterexample :
    (feedAll { httpMaxLineLength := 20 } {}
        [str "GET / HTTP/1.1\r\nContent-Length: 0000\r\n\r\n"]).error = none ∧
    (feedAll { httpMaxLineLength := 20 } {}
        ((str "GET / HTTP/1.1\r\nContent-Length: 0000\r\n\r\n").map (fun c => [c]))).error =
      some (str "too much data without a line termination (a)") := by
  decide

/-- Witness: a concrete two-chunk split of a `Content-Length: 3` request
equals the all-at-once parse. -/
theorem claim_c2_fixed_length_exact_witness :
    feedAll {} {} [str "GET / HTTP/1.1\r\nContent-Length: 3\r\n\r\nab", str "c"] =
      onData {} {} ([str "GET / HTTP/1.1\r\nContent-Length: 3\r\n\r\nab", str "c"].join) :=
  (claim_c2_fixed_length_exact {} (fun v => rfl)).1
    [str "GET / HTTP/1.1\r\nContent-Length: 3\r\n\r\nab", str "c"] {} rfl (by decide)
    (by decide)

set_option maxHeartbeats 1000000 in
/-- C6 (amended) — response round trip: serializing a response through
`send_server` with a clean header set and any body, then feeding the
produced bytes to a fresh opposite-role engine, delivers exactly one
`http_data` event carrying the body verbatim, with every given header
name still mapped to its given value, and leaves the engine reset for
the next message.  Clean means: names and values are LF-free and
`strip()`-invariant, names are colon-free and pairwise distinct after
lower-casing, no name lower-cases to one of the five framing headers
the engine itself consumes, lines fit the default limits.  (The
original unconditional claim is false: `__header` strips the parsed
value, so a value with leading or trailing whitespace is not recovered
- see the counterexample.) -/
theorem claim_c6_round_trip (hs : Dict) (b : Str)
    (hname : ∀ p ∈ hs, ('\n' ∉ p.1 ∧ ':' ∉ p.1 ∧ pyStrip p.1 = p.1))
    (hval : ∀ p ∈ hs, ('\n' ∉ p.2 ∧ pyStrip p.2 = p.2))
    (hlinelen : ∀ p ∈ hs, p.1.length + 2 + p.2.length ≤ 10000)
    (hdistinct : hs.Pairwise (fun p q => lowerStr p.1 ≠ lowerStr q.1))
    (hreserved : ∀ p ∈ hs, lowerStr p.1 ∉
      [str "date", str "content-length", str "transfer-encoding",
       str "content-encoding", str "content-type"])
    (hcnt : hs.length ≤ 98)
    (hblen : b.length < 10 ^ 100) :
    ∃ payload H,
      (sendServer {} {} b 200 (str "OK") hs false).events = [Event.sent payload] ∧
      (onData {} {} payload).events = [Event.httpData H b] ∧
      (∀ p ∈ hs, dictGet H p.1 = some p.2) ∧
      (onData {} {} payload).state = PState.status ∧
      (onData {} {} payload).closed = false := by
  -- abbreviations
  have hDate : dictGet hs (str "Date") = none := by
    rw [dictGet_none_iff]
    intro p hp hEq
    exact hreserved p hp (by rw [hEq]; decide)
  have hCL : dictGet hs (str "Content-Length") = none := by
    rw [dictGet_none_iff]
    intro p hp hEq
    exact hreserved p hp (by rw [hEq]; decide)
  have hfill : fillHeaders {} hs b =
      hs ++ [(str "Date", str "Sat, 01 Jan 2025 00:00:00 GMT"),
             (str "Content-Length", natToStr b.length)] := by
    simp only [fillHeaders, dictHas, hDate, Option.isSome_none, Bool.false_eq_true,
      if_false]
    rw [dictSet_absent hs _ _ hDate]
    rw [dictGet_append_of_none hs _ _ hCL]
    have hDC : dictGet [(str "Date", str "Sat, 01 Jan 2025 00:00:00 GMT")]
        (str "Content-Length") = none := by decide
    simp only [hDC, Option.isSome_none, Bool.false_eq_true, if_false]
    rw [dictSet_absent _ _ _ ?hnone]
    case hnone =>
      rw [dictGet_append_of_none hs _ _ hCL]
      exact hDC
    simp
  set DP : Str × Str := (str "Date", str "Sat, 01 Jan 2025 00:00:00 GMT") with hDP
  set CP : Str × Str := (str "Content-Length", natToStr b.length) with hCP
  set hsAll : Dict := hs ++ [DP, CP] with hhsAll
  -- digit facts about the Content-Length value
  have hdigAll : ∀ c ∈ natToStr b.length, c.isDigit = true :=
    toDigitsCore_digits (b.length + 1) b.length [] (by intro c hc; cases hc)
  have hnstrip : pyStrip (natToStr b.length) = natToStr b.length :=
    pyStrip_of_noSpace _ (fun c hc => isDigit_not_pySpace c (hdigAll c hc))
  have hnlf : '\n' ∉ natToStr b.length := by
    intro hmem
    have := hdigAll '\n' hmem
    simp at this
  have hnlen : (natToStr b.length).length ≤ 100 := by
    have := Nat.repr_length b.length 100 (by omega) hblen
    exact this
  -- every lower-cased name in hsAll avoids the capitalized framing keys
  have hlowTE : ∀ q ∈ hsAll, lowerStr q.1 ≠ str "Transfer-Encoding" := by
    intro q hq
    rcases List.mem_append.mp hq with h | h
    · exact lowerStr_ne_upper_head q.1 'T' _ (by decide) (by decide)
    · rcases List.mem_cons.mp h with h | h
      · rw [h]; decide
      · rcases List.mem_cons.mp h with h | h
        · rw [h]
          exact lowerStr_ne_upper_head _ 'T' _ (by decide) (by decide)
        · cases h
  have hlowCL : ∀ q ∈ hsAll, lowerStr q.1 ≠ str "Content-Length" := by
    intro q hq
    rcases List.mem_append.mp hq with h | h
    · exact lowerStr_ne_upper_head q.1 'C' _ (by decide) (by decide)
    · rcases List.mem_cons.mp h with h | h
      · rw [h]; decide
      · rcases List.mem_cons.mp h with h | h
        · rw [h]
          exact lowerStr_ne_upper_head _ 'C' _ (by decide) (by decide)
        · cases h
  have hlowCE : ∀ q ∈ hsAll, lowerStr q.1 ≠ str "Content-Encoding" := by
    intro q hq
    rcases List.mem_append.mp hq with h | h
    · exact lowerStr_ne_upper_head q.1 'C' _ (by decide) (by decide)
    · rcases List.mem_cons.mp h with h | h
      · rw [h]; decide
      · rcases List.mem_cons.mp h with h | h
        · rw [h]
          exact lowerStr_ne_upper_head _ 'C' _ (by decide) (by decide)
        · cases h
  have hlowCT : ∀ q ∈ hsAll, lowerStr q.1 ≠ str "Content-Type" := by
    intro q hq
    rcases List.mem_append.mp hq with h | h
    · exact lowerStr_ne_upper_head q.1 'C' _ (by decide) (by decide)
    · rcases List.mem_cons.mp h with h | h
      · rw [h]; decide
      · rcases List.mem_cons.mp h with h | h
        · rw [h]
          exact lowerStr_ne_upper_head _ 'C' _ (by decide) (by decide)
        · cases h
  -- plain lookups in hsAll
  have hgetTE : dictGet hsAll (str "Transfer-Encoding") = none := by
    rw [hhsAll, dictGet_append_of_none hs _ _ ?hu]
    case hu =>
      rw [dictGet_none_iff]
      intro p hp hEq
      exact hreserved p hp (by rw [hEq]; decide)
    rw [hDP, hCP]
    simp only [dictGet]
    rw [if_neg (by decide), if_neg (by decide)]
  have hgetCE : dictGet hsAll (str "Content-Encoding") = none := by
    rw [hhsAll, dictGet_append_of_none hs _ _ ?hu]
    case hu =>
      rw [dictGet_none_iff]
      intro p hp hEq
      exact hreserved p hp (by rw [hEq]; decide)
    rw [hDP, hCP]
    simp only [dictGet]
    rw [if_neg (by decide), if_neg (by decide)]
  have hgetCT : dictGet hsAll (str "Content-Type") = none := by
    rw [hhsAll, dictGet_append_of_none hs _ _ ?hu]
    case hu =>
      rw [dictGet_none_iff]
      intro p hp hEq
      exact hreserved p hp (by rw [hEq]; decide)
    rw [hDP, hCP]
    simp only [dictGet]
    rw [if_neg (by decide), if_neg (by decide)]
  have hgetCLa : dictGet hsAll (str "Content-Length") = some (natToStr b.length) := by
    rw [hhsAll, dictGet_append_of_none hs _ _ hCL]
    rw [hDP, hCP]
    simp only [dictGet]
    rw [if_neg (by decide)]
    simp
  -- folded lookups
  have hTEf : dictGet (lowerFold hsAll) (str "Transfer-Encoding") = none := by
    rw [lowerFold]
    exact dictGet_foldLower_none hsAll hsAll _ hgetTE hlowTE
  have hCEf : dictGet (lowerFold hsAll) (str "Content-Encoding") = none := by
    rw [lowerFold]
    exact dictGet_foldLower_none hsAll hsAll _ hgetCE hlowCE
  have hCTf : dictGet (lowerFold hsAll) (str "Content-Type") = none := by
    rw [lowerFold]
    exact dictGet_foldLower_none hsAll hsAll _ hgetCT hlowCT
  have hCLf : dictGet (lowerFold hsAll) (str "Content-Length") =
      some (natToStr b.length) := by
    rw [lowerFold]
    refine dictGet_foldLower_some hsAll hsAll _ _ hgetCLa ?_
    intro q hq hEq
    exact absurd hEq (hlowCL q hq)
  -- user bindings survive serialization, parsing and the lower-casing pass
  have hpwNames : hs.Pairwise (fun p q => p.1 ≠ q.1) :=
    hdistinct.imp (fun hne hEq => hne (by rw [hEq]))
  have hUser : ∀ p ∈ hs, dictGet (lowerFold hsAll) p.1 = some p.2 := by
    intro p hp
    rw [lowerFold]
    refine dictGet_foldLower_some hsAll hsAll _ _ ?base ?cover
    case base =>
      rw [hhsAll]
      exact dictGet_append_of_some hs _ _ _ (dictGet_mem_of_pairwise hs hpwNames p hp)
    case cover =>
      intro q hq hEq
      rcases List.mem_append.mp hq with h | h
      · by_cases hqp : q = p
        · rw [hqp]
        · exfalso
          have hplow : lowerStr p.1 = p.1 := by
            rw [← hEq, lowerStr_idem]
          have hsym : Symmetric (fun p q : Str × Str => lowerStr p.1 ≠ lowerStr q.1) :=
            fun a c hac hca => hac hca.symm
          exact (hdistinct.forall hsym h hp hqp) (hEq.trans hplow.symm)
      · exfalso
        rcases List.mem_cons.mp h with h | h
        · rw [h] at hEq
          have hp1 : p.1 = str "date" := by
            rw [← hEq, hDP]
            decide
          exact hreserved p hp (by rw [hp1]; decide)
        · rcases List.mem_cons.mp h with h | h
          · rw [h] at hEq
            have hp1 : p.1 = str "content-length" := by
              rw [← hEq, hCP]
              show lowerStr (str "Content-Length") = str "content-length"
              decide
            exact hreserved p hp (by rw [hp1]; decide)
          · cases h
  -- pairwise-distinct names across hsAll
  have hpwTail : List.Pairwise (fun p q : Str × Str => p.1 ≠ q.1) [DP, CP] := by
    constructor
    · intro q hq
      rcases List.mem_cons.mp hq with h | h
      · rw [hDP, h, hCP]
        show str "Date" ≠ str "Content-Length"
        decide
      · cases h
    · exact List.pairwise_singleton _ _
  have hpwAll : hsAll.Pairwise (fun p q : Str × Str => p.1 ≠ q.1) := by
    rw [hhsAll]
    refine List.pairwise_append.mpr ⟨hpwNames, hpwTail, ?_⟩
    intro p hp q hq
    rcases List.mem_cons.mp hq with h | h
    · rw [h, hDP]
      intro hEq
      exact hreserved p hp (by rw [hEq]; decide)
    · rcases List.mem_cons.mp h with h | h
      · rw [h, hCP]
        intro hEq
        refine hreserved p hp ?_
        rw [hEq]
        show lowerStr (str "Content-Length") ∈ _
        decide
      · cases h
  have hsetl : dictSetList ([] : Dict) hsAll = hsAll := by
    rw [dictSetList_fresh hsAll [] (fun p _ => rfl) hpwAll]
    simp
  -- the serialized payload
  set payload : Str := str "HTTP/1.1 " ++ natToStr 200 ++ str " " ++ str "OK"
    ++ str "\r\n" ++ headerBlock hsAll ++ str "\r\n\r\n" ++ b with hpayload
  have hne : hsAll ≠ [] := by rw [hhsAll]; simp
  have hbridge : headerBlock hsAll ++ '\r' :: '\n' :: '\r' :: '\n' :: b
      = hdrLines hsAll b := headerBlock_hdrLines b hsAll hne
  have hpay2 : payload = str "HTTP/1.1 200 OK" ++ '\r' :: '\n' ::
      (headerBlock hsAll ++ '\r' :: '\n' :: '\r' :: '\n' :: b) := by
    rw [hpayload]
    simp only [List.append_assoc]
    rfl
  have honData : onData {} {} payload = runLoop {} (addData {} payload) := rfl
  -- the status-line step
  have hgetS : getLine {} (addData {} payload) = (.line (str "HTTP/1.1 200 OK"),
      { addData {} payload with
        data := headerBlock hsAll ++ '\r' :: '\n' :: '\r' :: '\n' :: b }) := by
    apply getLine_clean
    · exact hpay2
    · decide
    · decide
  set S1 : HState := { data := headerBlock hsAll ++ '\r' :: '\n' :: '\r' :: '\n' :: b, httpStatusCode := some 200, httpStatusMessage := some (str "OK"), state := PState.header } with hS1
  have hstep1 : step {} (addData {} payload) = (true, S1) := by
    have hstS : (addData {} payload).state = PState.status := rfl
    simp only [step, hstS, status, hgetS]
    rfl
  -- the header lines
  set S2 : HState := { data := '\r' :: '\n' :: b, httpHeaders := hsAll, httpStatusCode := some 200, httpStatusMessage := some (str "OK"), state := PState.header } with hS2
  have hwalk : runLoop {} S1 = runLoop {} S2 := by
    have hS1d : S1.data = hdrLines hsAll b := by
      rw [hS1]
      exact hbridge
    have hclean : ∀ p ∈ hsAll, ('\n' ∉ p.1 ∧ ':' ∉ p.1 ∧ pyStrip p.1 = p.1) ∧
        ('\n' ∉ p.2 ∧ pyStrip p.2 = p.2) ∧
        p.1.length + 2 + p.2.length ≤ ({} : Cfg).httpMaxLineLength := by
      intro p hp
      rw [hhsAll] at hp
      rcases List.mem_append.mp hp with h | h
      · exact ⟨hname p h, hval p h, hlinelen p h⟩
      · rcases List.mem_cons.mp h with h | h
        · rw [h, hDP]
          refine ⟨by decide, by decide, by decide⟩
        · rcases List.mem_cons.mp h with h | h
          · rw [h, hCP]
            refine ⟨?_, ⟨hnlf, hnstrip⟩, ?_⟩
            · show '\n' ∉ str "Content-Length" ∧ ':' ∉ str "Content-Length" ∧
                pyStrip (str "Content-Length") = str "Content-Length"
              decide
            show (str "Content-Length").length + 2 + (natToStr b.length).length ≤ 10000
            have h14 : (str "Content-Length").length = 14 := by decide
            omega
          · cases h
    have hcount : dictLen S1.httpHeaders + hsAll.length ≤ ({} : Cfg).httpMaxHeaderCount := by
      show dictLen ([] : Dict) + hsAll.length ≤ 100
      rw [hhsAll]
      simp only [dictLen, List.length_nil, List.length_append, List.length_cons]
      simp
      omega
    have hw := header_walk {} b hsAll S1 rfl hclean hcount hS1d
    rw [hw]
    rw [hS2]
    have hgoal : ({ S1 with data := '\r' :: '\n' :: b, httpHeaders := dictSetList S1.httpHeaders hsAll } : HState) = ({ data := '\r' :: '\n' :: b, httpHeaders := hsAll, httpStatusCode := some 200, httpStatusMessage := some (str "OK"), state := PState.header } : HState) := by
      rw [hS1]
      show ({ data := '\r' :: '\n' :: b, httpHeaders := dictSetList ([] : Dict) hsAll, httpStatusCode := some 200, httpStatusMessage := some (str "OK"), state := PState.header } : HState) = _
      rw [hsetl]
    rw [hgoal]
  -- the blank line and _end_header
  have hgetB : getLine {} S2 = (.line [], { S2 with data := b }) := by
    apply getLine_clean
    · rfl
    · simp
    · decide
  set SC : HState := { data := b, httpHeaders := lowerFold hsAll, httpStatusCode := some 200, httpStatusMessage := some (str "OK"), length := (b.length : Int), state := PState.content } with hSC
  have hEndH : endHeader {} { S2 with data := b } = (true, SC) := by
    simp only [endHeader, dictHas, hTEf, hCLf, Option.isSome_none, Option.isSome_some,
      Bool.false_eq_true, if_false, if_true, Option.getD_some, pyInt_natToStr]
    rw [if_neg (show ((none : Option Str) = some (str "HEAD")) → False from fun h => by cases h)]
    rw [show maxContentCheck {} ((b.length : Nat) : Int) = false from rfl]
    simp only [Bool.false_eq_true, if_false]
    rw [if_neg (show ¬ ((0 : Nat) ≠ 0) from by decide)]
  have hstep2 : step {} S2 = (true, SC) := by
    have hstS2 : S2.state = PState.header := rfl
    simp only [step, hstS2, header, hgetB]
    exact hEndH
  -- the body
  set R : HState := { data := ([] : Str), length := (b.length : Int), events := [Event.httpData (lowerFold hsAll) b] } with hR
  have hconA : runLoop {} SC = R := by
    have h1 : onData {} { SC with data := ([] : Str) } b
        = runLoop {} (addData { SC with data := ([] : Str) } b) := rfl
    have h0 : runLoop {} SC = runLoop {} (addData { SC with data := ([] : Str) } b) := rfl
    rw [h0, ← h1]
    have hce := content_exact {} { SC with data := ([] : Str) } b rfl rfl rfl ?hgz ?hcs
    case hgz =>
      show dictGet (lowerFold hsAll) (str "Content-Encoding") ≠ some (str "gzip")
      rw [hCEf]
      simp
    case hcs =>
      show charsetOf (lowerFold hsAll) = none
      simp only [charsetOf, hCTf]
    rw [hce]
    rw [hR]
    rfl
  have hrun : onData {} {} payload = R := by
    rw [honData, runLoop_true {} _ _ hstep1, hwalk, runLoop_true {} _ _ hstep2, hconA]
  refine ⟨payload, lowerFold hsAll, ?_, ?_, ?_, ?_, ?_⟩
  · have hsend : (sendServer {} {} b 200 (str "OK") hs false).events
        = [Event.sent (str "HTTP/1.1 " ++ natToStr 200 ++ str " " ++ str "OK"
          ++ str "\r\n" ++ headerBlock (fillHeaders {} hs b) ++ str "\r\n\r\n" ++ b)] := rfl
    rw [hsend, hfill, hpayload]
  · rw [hrun, hR]
  · exact hUser
  · rw [hrun, hR]
  · rw [hrun, hR]

/-- C6 counterexample — the round trip loses whitespace: a header sent
as `X: ' a'` serializes to `X:  a` and parses back as `a`, because
`__header` strips the value; the recovered value differs from the one
given. -/
theorem claim_c6_counterexample :
    (sendServer {} {} [] 200 (str "OK") [(str "X", str " a")] false).events
      = [Event.sent (str "HTTP/1.1 200 OK\r\nX:  a\r\nDate: Sat, 01 Jan 2025 00:00:00 GMT\r\nContent-Length: 0\r\n\r\n")] ∧
    (onData {} {} (str "HTTP/1.1 200 OK\r\nX:  a\r\nDate: Sat, 01 Jan 2025 00:00:00 GMT\r\nContent-Length: 0\r\n\r\n")).events
      = [Event.httpData
          [(str "X", str "a"), (str "Date", str "Sat, 01 Jan 2025 00:00:00 GMT"),
           (str "Content-Length", str "0"), (str "x", str "a"),
           (str "date", str "Sat, 01 Jan 2025 00:00:00 GMT"),
           (str "content-length", str "0")] []] ∧
    dictGet [(str "X", str "a"), (str "Date", str "Sat, 01 Jan 2025 00:00:00 GMT"),
           (str "Content-Length", str "0"), (str "x", str "a"),
           (str "date", str "Sat, 01 Jan 2025 00:00:00 GMT"),
           (str "content-length", str "0")] (str "X") = some (str "a") ∧
    some (str "a") ≠ some (str " a") := by
  refine ⟨by decide, by decide, by decide, by decide⟩

/-- Witness: one clean header and a two-byte body survive the round
trip. -/
theorem claim_c6_round_trip_witness :
    ∃ payload H,
      (sendServer {} {} (str "hi") 200 (str "OK") [(str "X-Trace", str "abc")] false).events
        = [Event.sent payload] ∧
      (onData {} {} payload).events = [Event.httpData H (str "hi")] ∧
      (∀ p ∈ [(str "X-Trace", str "abc")], dictGet H p.1 = some p.2) ∧
      (onData {} {} payload).state = PState.status ∧
      (onData {} {} payload).closed = false :=
  claim_c6_round_trip [(str "X-Trace", str "abc")] (str "hi")
    (by decide) (by decide) (by decide) (by decide) (by decide) (by decide) (by decide)



/-- **C7** (amended) — Oversized declared lengths: when the declared
`Content-Length` (or the buffered bytes plus an announced chunk length)
exceeds the configured maximum, the engine emits the serialized
`413 Request Entity Too Large` response *first* and only then records
the error and closes — and it does so in *either* role: no hypothesis
on the parsed role is needed. -/
theorem claim_c7_too_large_413 :
    (∀ (cfg : Cfg) (s : HState) (v : Str) (n : Int),
      s.closed = false → s.identityOnClose = false →
      s.sentHttpMethod ≠ some (str "HEAD") →
      dictHas (lowerFold s.httpHeaders) (str "Transfer-Encoding") = false →
      dictGet (lowerFold s.httpHeaders) (str "Content-Length") = some v →
      pyInt v = some n →
      maxContentCheck cfg n = true →
      (endHeader cfg s).1 = false ∧
      (endHeader cfg s).2.closed = true ∧
      (endHeader cfg s).2.error = some (str "Content-Length exceeds maximum length") ∧
      (endHeader cfg s).2.events = s.events ++
        [.sent (resp413 cfg), .httpError (str "Content-Length exceeds maximum length")]) ∧
    (∀ (cfg : Cfg) (s : HState) (l : Str) (s1 : HState) (n : Int),
      s.state = .chunkedLength → s.closed = false → s.identityOnClose = false →
      getLine cfg s = (.line l, s1) →
      pyIntHex (chunkSizeTok l) = some n → n ≠ 0 →
      maxContentCheck cfg (pyLen s1.data + n) = true →
      (step cfg s).1 = false ∧
      (step cfg s).2.closed = true ∧
      (step cfg s).2.error = some (str "Content-Length exceeds maximum length") ∧
      (step cfg s).2.events = s.events ++
        [.sent (resp413 cfg), .httpError (str "Content-Length exceeds maximum length")]) := by
  constructor
  · intro cfg s v n hclosed hioc hHead hTE hCL hn hmax
    have hTEg : (dictGet (lowerFold s.httpHeaders) (str "Transfer-Encoding")).isSome
        = false := hTE
    have hstep : endHeader cfg s =
        (false, fatal cfg
          (sendServer cfg { s with httpHeaders := lowerFold s.httpHeaders, length := n }
            [] 413 (str "Request Entity Too Large") [] false)
          (str "Content-Length exceeds maximum length")) := by
      simp only [endHeader, hHead, hTEg, dictHas, hCL, Option.getD_some,
        Option.isSome_some, Option.isSome_none, Bool.false_eq_true, if_false,
        if_true, hn, hmax, ite_true, ite_false]
    rw [hstep]
    simp [fatal, closeConn, sendServer, sendRaw, hclosed, hioc, resp413]
  · intro cfg s l s1 n hstate hclosed hioc hline hn hn0 hmax
    obtain ⟨hs1, _⟩ := getLine_line cfg s l s1 hline
    have hcl : s1.closed = false := by rw [hs1]; exact hclosed
    have hio : s1.identityOnClose = false := by rw [hs1]; exact hioc
    have hev : s1.events = s.events := by rw [hs1]
    have hstep : step cfg s =
        (false, fatal cfg
          (sendServer cfg { s1 with length := n }
            [] 413 (str "Request Entity Too Large") [] false)
          (str "Content-Length exceeds maximum length")) := by
      simp only [step, hstate, chunkedLength, hline, hn, hn0, hmax, if_true,
        ite_false, if_false]
    rw [hstep]
    simp [fatal, closeConn, sendServer, sendRaw, hcl, hio, hev, resp413]

/-- Witness for C7 (amended): a concrete header set with
`Content-Length: 100` against a 10-byte maximum draws the 413 bytes and
the fatal diagnostic. -/
theorem claim_c7_too_large_413_witness :
    ((endHeader { httpMaxContentLength := some 10 }
        { httpHeaders := [(str "Content-Length", str "100")] }).2.closed = true) ∧
    ((endHeader { httpMaxContentLength := some 10 }
        { httpHeaders := [(str "Content-Length", str "100")] }).2.error
      = some (str "Content-Length exceeds maximum length")) :=
  ⟨(claim_c7_too_large_413.1 { httpMaxContentLength := some 10 }
      { httpHeaders := [(str "Content-Length", str "100")] }
      (str "100") 100 rfl rfl (by decide) (by decide) (by decide) (by decide)
      (by decide)).2.1,
   (claim_c7_too_large_413.1 { httpMaxContentLength := some 10 }
      { httpHeaders := [(str "Content-Length", str "100")] }
      (str "100") 100 rfl rfl (by decide) (by decide) (by decide) (by decide)
      (by decide)).2.2.1⟩

/-- **C7 counterexample** — the claim's "server role only" is false: a
*client*-role parse (a status-line response, no request method) of an
oversized `Content-Length` also sends the 413 response bytes before the
error. -/
theorem claim_c7_counterexample :
    ((onData { httpMaxContentLength := some 10 } {}
        (str "HTTP/1.1 200 OK\r\nContent-Length: 100\r\n\r\n")).httpMethod = none) ∧
    ((onData { httpMaxContentLength := some 10 } {}
        (str "HTTP/1.1 200 OK\r\nContent-Length: 100\r\n\r\n")).httpStatusCode = some 200) ∧
    ((onData { httpMaxContentLength := some 10 } {}
        (str "HTTP/1.1 200 OK\r\nContent-Length: 100\r\n\r\n")).events
      = [.sent (str "HTTP/1.1 413 Request Entity Too Large\r\nDate: Sat, 01 Jan 2025 00:00:00 GMT\r\nContent-Length: 0\r\n\r\n"),
         .httpError (str "Content-Length exceeds maximum length")]) := by
  refine ⟨by decide, by decide, by decide⟩

/-- **C8** (amended) — A non-zero `on_http_headers` return code aborts
the message whenever the framing is HEAD, chunked, or `Content-Length`
within bounds: the error callback fires with the returned detail, the
connection closes, and the message-complete callback is not invoked.
(The two no-length framings violate the original claim: see the
counterexample.) -/
theorem claim_c8_headers_abort :
    (∀ (cfg : Cfg) (s : HState),
      s.closed = false → s.identityOnClose = false →
      cfg.onHttpHeadersRc ≠ 0 →
      s.sentHttpMethod = some (str "HEAD") →
      (endHeader cfg s).1 = false ∧
      (endHeader cfg s).2.closed = true ∧
      (endHeader cfg s).2.error = some cfg.onHttpHeadersDetail ∧
      (endHeader cfg s).2.events = s.events ++ [.httpError cfg.onHttpHeadersDetail]) ∧
    (∀ (cfg : Cfg) (s : HState),
      s.closed = false → s.identityOnClose = false →
      cfg.onHttpHeadersRc ≠ 0 →
      s.sentHttpMethod ≠ some (str "HEAD") →
      dictGet (lowerFold s.httpHeaders) (str "Transfer-Encoding") = some (str "chunked") →
      (endHeader cfg s).1 = false ∧
      (endHeader cfg s).2.closed = true ∧
      (endHeader cfg s).2.error = some cfg.onHttpHeadersDetail ∧
      (endHeader cfg s).2.events = s.events ++ [.httpError cfg.onHttpHeadersDetail]) ∧
    (∀ (cfg : Cfg) (s : HState) (v : Str) (n : Int),
      s.closed = false → s.identityOnClose = false →
      cfg.onHttpHeadersRc ≠ 0 →
      s.sentHttpMethod ≠ some (str "HEAD") →
      dictHas (lowerFold s.httpHeaders) (str "Transfer-Encoding") = false →
      dictGet (lowerFold s.httpHeaders) (str "Content-Length") = some v →
      pyInt v = some n →
      maxContentCheck cfg n = false →
      (endHeader cfg s).1 = false ∧
      (endHeader cfg s).2.closed = true ∧
      (endHeader cfg s).2.error = some cfg.onHttpHeadersDetail ∧
      (endHeader cfg s).2.events = s.events ++ [.httpError cfg.onHttpHeadersDetail]) := by
  refine ⟨?_, ?_, ?_⟩
  · intro cfg s hclosed hioc hrc hHead
    have hstep : endHeader cfg s =
        (false, fatal cfg
          { s with httpHeaders := lowerFold s.httpHeaders, length := 0, state := .content }
          cfg.onHttpHeadersDetail) := by
      simp only [endHeader, hHead, hrc, if_true, ite_true, ne_eq,
        not_false_eq_true, if_false, ite_false]
    rw [hstep]
    simp [fatal, closeConn, hclosed, hioc]
  · intro cfg s hclosed hioc hrc hHead hTE
    have hTEhas : dictHas (lowerFold s.httpHeaders) (str "Transfer-Encoding") = true := by
      simp [dictHas, hTE]
    have hstep : endHeader cfg s =
        (false, fatal cfg
          { s with httpHeaders := lowerFold s.httpHeaders, state := .chunkedLength }
          cfg.onHttpHeadersDetail) := by
      simp only [endHeader, hHead, hTEhas, hTE, hrc, if_true, ite_true, ne_eq,
        not_false_eq_true, not_true, if_false, ite_false, reduceCtorEq]
    rw [hstep]
    simp [fatal, closeConn, hclosed, hioc]
  · intro cfg s v n hclosed hioc hrc hHead hTE hCL hn hmax
    have hTEg : (dictGet (lowerFold s.httpHeaders) (str "Transfer-Encoding")).isSome
        = false := hTE
    have hstep : endHeader cfg s =
        (false, fatal cfg
          { s with httpHeaders := lowerFold s.httpHeaders, length := n, state := .content }
          cfg.onHttpHeadersDetail) := by
      simp only [endHeader, hHead, hTEg, dictHas, hCL, Option.getD_some,
        Option.isSome_some, Bool.false_eq_true, if_false, if_true, hn, hmax,
        ite_true, ite_false, hrc, ne_eq, not_false_eq_true]
    rw [hstep]
    simp [fatal, closeConn, hclosed, hioc]

/-- Witness for C8 (amended): a `Content-Length: 3` request against a
handler whose `on_http_headers` returns `(1, 'bad headers')` closes
with only the error event. -/
theorem claim_c8_headers_abort_witness :
    ((endHeader { onHttpHeadersRc := 1, onHttpHeadersDetail := str "bad headers" }
        { httpHeaders := [(str "Content-Length", str "3")] }).2.closed = true) ∧
    ((endHeader { onHttpHeadersRc := 1, onHttpHeadersDetail := str "bad headers" }
        { httpHeaders := [(str "Content-Length", str "3")] }).2.events
      = [.httpError (str "bad headers")]) :=
  ⟨(claim_c8_headers_abort.2.2 { onHttpHeadersRc := 1, onHttpHeadersDetail := str "bad headers" }
      { httpHeaders := [(str "Content-Length", str "3")] } (str "3") 3
      rfl rfl (by decide) (by decide) (by decide) (by decide) (by decide)
      (by decide)).2.1,
   (claim_c8_headers_abort.2.2 { onHttpHeadersRc := 1, onHttpHeadersDetail := str "bad headers" }
      { httpHeaders := [(str "Content-Length", str "3")] } (str "3") 3
      rfl rfl (by decide) (by decide) (by decide) (by decide) (by decide)
      (by decide)).2.2.2⟩

/-- **C8 counterexample** — the claim as stated is false: for a
server-role request with no `Content-Length`, `_end_header` delivers
the complete-message callback (empty body) *before* consulting
`on_http_headers`, so a non-zero return code does not prevent it. -/
theorem claim_c8_counterexample :
    (onData { onHttpHeadersRc := 1, onHttpHeadersDetail := str "bad headers" } {}
        (str "GET / HTTP/1.1\r\nHost: x\r\n\r\n")).events
      = [.httpData [(str "Host", str "x"), (str "host", str "x")] [],
         .httpError (str "bad headers")] := by
  decide

/-- **C5 counterexample** — the claim as stated is false: `expire()`
moves a deadline into the past without re-ordering the list, so a later
`service()` pops the head deadline `100000` before the buried deadline
`-4997`, a strictly decreasing firing order. -/
theorem claim_c5_counterexample :
    ((tRun [TOp.add 1 11 100000, TOp.add 2 22 200000, TOp.start 1 0,
      TOp.start 2 0, TOp.expire 2 3, TOp.service 150000]).fired.map Prod.snd
      = [100000, -4997]) ∧
    ¬ List.Pairwise (· ≤ ·) ((tRun [TOp.add 1 11 100000, TOp.add 2 22 200000,
      TOp.start 1 0, TOp.start 2 0, TOp.expire 2 3,
      TOp.service 150000]).fired.map Prod.snd) := by
  constructor
  · decide
  · decide

end Rhc
